import Mathlib

/-!
AVL tree (`avl_example_completed.cpp`): embedding and verification

The C++ class `AVLTree<T>` is embedded as pure functions on an inductive
`Node` type.  A `Node*` is a value of `Node α`, the null pointer being
`Node.null`.  Functions that dereference a pointer return `Option`: `none`
stands for dereferencing a null pointer (undefined behaviour in the source),
`some t` for a normal return with the new subtree root `t`.

The key type `T` is any linearly ordered type; `v == n->data` and
`v < n->data` are the equality and strict order of that type.  The `int`
height field is an unbounded `Int`: the operations only ever add one to the
height of a subtree.  Memory release (`delete`) is not modelled.  The
tree-drawing output of `PrintTree` is not modelled either; the lines the
rotations print are kept by a second copy of the mutating functions
(`RotateLeftLog` to `RemoveNodeLog`), which return the printed lines next to
the result and agree with the first copy once the lines are dropped
(`insertValueLog_fst`, `removeNodeLog_fst`).
-/

namespace AVL

/-- Tree node of the source (`struct Node`): `data`, `left`, `right`, `height`;
`null` is the null pointer. -/
inductive Node (α : Type) where
  | null : Node α
  | mk (data : α) (left : Node α) (right : Node α) (height : Int) : Node α
  deriving DecidableEq

/-- Constructor `Node(const T& value)`: a leaf with height 0. -/
def Node.new {α : Type} (value : α) : Node α := Node.mk value Node.null Node.null 0

/-- Test `!n` of the source. -/
def Node.isNull {α : Type} : Node α → Bool
  | Node.null => true
  | Node.mk _ _ _ _ => false

/-- The four kinds of rotation line the source prints
(`LEFT`, `RIGHT`, `LEFT-RIGHT`, `RIGHT-LEFT rotation performed at node ...`). -/
inductive RotationKind where
  | left : RotationKind
  | right : RotationKind
  | leftRight : RotationKind
  | rightLeft : RotationKind
  deriving DecidableEq

section Code

variable {α : Type} [LinearOrder α]

/-- Source `GetHeight(Node* n)`: `n ? n->height : -1`. -/
def GetHeight : Node α → Int
  | Node.null => -1
  | Node.mk _ _ _ h => h

/-- Source `GetBalance(Node* n)`: `n ? GetHeight(n->left) - GetHeight(n->right) : 0`. -/
def GetBalance : Node α → Int
  | Node.null => 0
  | Node.mk _ l r _ => GetHeight l - GetHeight r

/-- Source `UpdateHeight(Node* n)`: stores `1 + max(GetHeight(left), GetHeight(right))`. -/
def UpdateHeight : Node α → Node α
  | Node.null => Node.null
  | Node.mk d l r _ => Node.mk d l r (1 + max (GetHeight l) (GetHeight r))

/-- Source `RotateLeft(Node* k1)`.  Reads `k1->right` and `k2->left`, so both `k1`
and `k1->right` must be non-null. -/
def RotateLeft : Node α → Option (Node α)
  | Node.mk d1 l1 (Node.mk d2 y r2 h2) h1 =>
      let k1 := UpdateHeight (Node.mk d1 l1 y h1)
      some (UpdateHeight (Node.mk d2 k1 r2 h2))
  | _ => none

/-- Source `RotateRight(Node* k2)`.  Reads `k2->left` and `k1->right`, so both `k2`
and `k2->left` must be non-null. -/
def RotateRight : Node α → Option (Node α)
  | Node.mk d2 (Node.mk d1 l1 y h1) r2 h2 =>
      let k2 := UpdateHeight (Node.mk d2 y r2 h2)
      some (UpdateHeight (Node.mk d1 l1 k2 h1))
  | _ => none

/-- Source `RotateLeftRight(Node* n)`: `n->left = RotateLeft(n->left); return RotateRight(n);`. -/
def RotateLeftRight : Node α → Option (Node α)
  | Node.null => none
  | Node.mk d l r h =>
      match RotateLeft l with
      | none => none
      | some l1 => RotateRight (Node.mk d l1 r h)

/-- Source `RotateRightLeft(Node* n)`: `n->right = RotateRight(n->right); return RotateLeft(n);`. -/
def RotateRightLeft : Node α → Option (Node α)
  | Node.null => none
  | Node.mk d l r h =>
      match RotateRight r with
      | none => none
      | some r1 => RotateLeft (Node.mk d l r1 h)

/-- Source `Rebalance(Node* n)`. -/
def Rebalance : Node α → Option (Node α)
  | Node.null => some Node.null
  | Node.mk d l r h =>
      let balance := GetBalance (Node.mk d l r h)
      if balance > 1 then
        if GetBalance l ≥ 0 then RotateRight (Node.mk d l r h)
        else RotateLeftRight (Node.mk d l r h)
      else if balance < -1 then
        if GetBalance r ≤ 0 then RotateLeft (Node.mk d l r h)
        else RotateRightLeft (Node.mk d l r h)
      else some (Node.mk d l r h)

/-- Source `FindMinimum(Node* n)`: reads `n->left`, so `n` must be non-null. -/
def FindMinimum : Node α → Option (Node α)
  | Node.null => none
  | Node.mk d l r h => if l.isNull then some (Node.mk d l r h) else FindMinimum l

/-- Source `FindMaximum(Node* n)`: reads `n->right`, so `n` must be non-null. -/
def FindMaximum : Node α → Option (Node α)
  | Node.null => none
  | Node.mk d l r h => if r.isNull then some (Node.mk d l r h) else FindMaximum r

/-- Source `Found(Node* n, const T& v)`. -/
def Found : Node α → α → Bool
  | Node.null, _ => false
  | Node.mk d l r _, v =>
      if v = d then true
      else if v < d then Found l v
      else Found r v

/-- Source `Inorder(Node* n, std::vector<T>* values)`: the vector is passed in and
returned; `push_back` appends at the end. -/
def Inorder : Node α → List α → List α
  | Node.null, values => values
  | Node.mk d l r _, values => Inorder r (Inorder l values ++ [d])

/-- Source `InsertValue(Node* n, const T& v)`. -/
def InsertValue : Node α → α → Option (Node α)
  | Node.null, v => some (Node.new v)
  | Node.mk d l r h, v =>
      if v = d then some (Node.mk d l r h)
      else if v < d then
        match InsertValue l v with
        | none => none
        | some l1 => Rebalance (UpdateHeight (Node.mk d l1 r h))
      else
        match InsertValue r v with
        | none => none
        | some r1 => Rebalance (UpdateHeight (Node.mk d l r1 h))

/-- Source `RemoveNode(Node* n, const T& v)`. -/
def RemoveNode : Node α → α → Option (Node α)
  | Node.null, _ => some Node.null
  | Node.mk d l r h, v =>
      if v = d then
        if l.isNull && r.isNull then some Node.null
        else
          let temp := if l.isNull then r else if r.isNull then l else Node.null
          if !temp.isNull then some temp
          else
            match FindMinimum r with
            | none => none
            | some Node.null => none
            | some (Node.mk min _ _ _) =>
                match RemoveNode r min with
                | none => none
                | some r1 => Rebalance (UpdateHeight (Node.mk min l r1 h))
      else if v < d then
        match RemoveNode l v with
        | none => none
        | some l1 => Rebalance (UpdateHeight (Node.mk d l1 r h))
      else
        match RemoveNode r v with
        | none => none
        | some r1 => Rebalance (UpdateHeight (Node.mk d l r1 h))

/-- The class `AVLTree<T>`: its only data member is the root pointer. -/
structure AVLTree (α : Type) where
  root : Node α
  deriving DecidableEq

/-- Constructor `AVLTree() : root(nullptr)`. -/
def AVLTree.empty : AVLTree α := ⟨Node.null⟩

/-- Source `Insert(const T& value)`: `root = InsertValue(root, value)`. -/
def AVLTree.Insert (t : AVLTree α) (value : α) : Option (AVLTree α) :=
  match InsertValue t.root value with
  | none => none
  | some r => some ⟨r⟩

/-- Source `Remove(const T& value)`: `root = RemoveNode(root, value)`. -/
def AVLTree.Remove (t : AVLTree α) (value : α) : Option (AVLTree α) :=
  match RemoveNode t.root value with
  | none => none
  | some r => some ⟨r⟩

/-- Source `Contains(const T& value)`. -/
def AVLTree.Contains (t : AVLTree α) (value : α) : Bool := Found t.root value

/-- Source public `GetHeight()`. -/
def AVLTree.GetHeight (t : AVLTree α) : Int := AVL.GetHeight t.root

/-- Result of `FindMin`/`FindMax`: the thrown `std::runtime_error("Empty tree")`,
a null dereference, or the returned key. -/
inductive Outcome (α : Type) where
  | emptyTree : Outcome α
  | nullDeref : Outcome α
  | value (v : α) : Outcome α
  deriving DecidableEq

/-- Source `FindMin()`. -/
def AVLTree.FindMin (t : AVLTree α) : Outcome α :=
  if t.root.isNull then Outcome.emptyTree
  else
    match FindMinimum t.root with
    | some (Node.mk d _ _ _) => Outcome.value d
    | _ => Outcome.nullDeref

/-- Source `FindMax()`. -/
def AVLTree.FindMax (t : AVLTree α) : Outcome α :=
  if t.root.isNull then Outcome.emptyTree
  else
    match FindMaximum t.root with
    | some (Node.mk d _ _ _) => Outcome.value d
    | _ => Outcome.nullDeref

/-- Source `Traverse()`: the sequence of values it prints (nothing for an empty tree). -/
def AVLTree.Traverse (t : AVLTree α) : List α :=
  if t.root.isNull then [] else Inorder t.root []


/-! Section: The same functions with their console output -/

/-- Source `RotateLeft` with its console output: the result and the line printed, as the
pair of rotation kind and key of the node it was called on. -/
def RotateLeftLog : Node α → Option (Node α × List (RotationKind × α))
  | Node.mk d1 l1 (Node.mk d2 y r2 h2) h1 =>
      let k1 := UpdateHeight (Node.mk d1 l1 y h1)
      some (UpdateHeight (Node.mk d2 k1 r2 h2), [(RotationKind.left, d1)])
  | _ => none

/-- Source `RotateRight` with its console output. -/
def RotateRightLog : Node α → Option (Node α × List (RotationKind × α))
  | Node.mk d2 (Node.mk d1 l1 y h1) r2 h2 =>
      let k2 := UpdateHeight (Node.mk d2 y r2 h2)
      some (UpdateHeight (Node.mk d1 l1 k2 h1), [(RotationKind.right, d2)])
  | _ => none

/-- Source `RotateLeftRight` with its console output: its own line, then the lines of
`RotateLeft(n->left)` and of `RotateRight(n)`. -/
def RotateLeftRightLog : Node α → Option (Node α × List (RotationKind × α))
  | Node.null => none
  | Node.mk d l r h =>
      match RotateLeftLog l with
      | none => none
      | some (l1, out1) =>
          match RotateRightLog (Node.mk d l1 r h) with
          | none => none
          | some (t, out2) => some (t, (RotationKind.leftRight, d) :: (out1 ++ out2))

/-- Source `RotateRightLeft` with its console output. -/
def RotateRightLeftLog : Node α → Option (Node α × List (RotationKind × α))
  | Node.null => none
  | Node.mk d l r h =>
      match RotateRightLog r with
      | none => none
      | some (r1, out1) =>
          match RotateLeftLog (Node.mk d l r1 h) with
          | none => none
          | some (t, out2) => some (t, (RotationKind.rightLeft, d) :: (out1 ++ out2))

/-- Source `Rebalance` with the console output of the rotation it dispatches to. -/
def RebalanceLog : Node α → Option (Node α × List (RotationKind × α))
  | Node.null => some (Node.null, [])
  | Node.mk d l r h =>
      let balance := GetBalance (Node.mk d l r h)
      if balance > 1 then
        if GetBalance l ≥ 0 then RotateRightLog (Node.mk d l r h)
        else RotateLeftRightLog (Node.mk d l r h)
      else if balance < -1 then
        if GetBalance r ≤ 0 then RotateLeftLog (Node.mk d l r h)
        else RotateRightLeftLog (Node.mk d l r h)
      else some (Node.mk d l r h, [])

/-- Source `InsertValue` with the console output of the rotations performed, in order. -/
def InsertValueLog : Node α → α → Option (Node α × List (RotationKind × α))
  | Node.null, v => some (Node.new v, [])
  | Node.mk d l r h, v =>
      if v = d then some (Node.mk d l r h, [])
      else if v < d then
        match InsertValueLog l v with
        | none => none
        | some (l1, out1) =>
            match RebalanceLog (UpdateHeight (Node.mk d l1 r h)) with
            | none => none
            | some (t, out2) => some (t, out1 ++ out2)
      else
        match InsertValueLog r v with
        | none => none
        | some (r1, out1) =>
            match RebalanceLog (UpdateHeight (Node.mk d l r1 h)) with
            | none => none
            | some (t, out2) => some (t, out1 ++ out2)

/-- Source `RemoveNode` with the console output of the rotations performed, in order. -/
def RemoveNodeLog : Node α → α → Option (Node α × List (RotationKind × α))
  | Node.null, _ => some (Node.null, [])
  | Node.mk d l r h, v =>
      if v = d then
        if l.isNull && r.isNull then some (Node.null, [])
        else
          let temp := if l.isNull then r else if r.isNull then l else Node.null
          if !temp.isNull then some (temp, [])
          else
            match FindMinimum r with
            | none => none
            | some Node.null => none
            | some (Node.mk min _ _ _) =>
                match RemoveNodeLog r min with
                | none => none
                | some (r1, out1) =>
                    match RebalanceLog (UpdateHeight (Node.mk min l r1 h)) with
                    | none => none
                    | some (t, out2) => some (t, out1 ++ out2)
      else if v < d then
        match RemoveNodeLog l v with
        | none => none
        | some (l1, out1) =>
            match RebalanceLog (UpdateHeight (Node.mk d l1 r h)) with
            | none => none
            | some (t, out2) => some (t, out1 ++ out2)
      else
        match RemoveNodeLog r v with
        | none => none
        | some (r1, out1) =>
            match RebalanceLog (UpdateHeight (Node.mk d l r1 h)) with
            | none => none
            | some (t, out2) => some (t, out1 ++ out2)

/-- Number of nodes at which `Rebalance` dispatched to a rotation, read off the console
output: a `LEFT-RIGHT` or `RIGHT-LEFT` line is followed by the two lines of the single
rotations it is made of, every other line stands for one dispatch. -/
def rotationPoints : List (RotationKind × α) → Nat
  | [] => 0
  | (RotationKind.leftRight, _) :: _ :: _ :: rest => 1 + rotationPoints rest
  | (RotationKind.rightLeft, _) :: _ :: _ :: rest => 1 + rotationPoints rest
  | _ :: rest => 1 + rotationPoints rest

/-- The console output of exactly one dispatch of `Rebalance` to a rotation. -/
def OneDispatch (out : List (RotationKind × α)) : Prop :=
  (∃ k, out = [(RotationKind.right, k)]) ∨
  (∃ k, out = [(RotationKind.left, k)]) ∨
  (∃ k k1, out = [(RotationKind.leftRight, k), (RotationKind.left, k1),
    (RotationKind.right, k)]) ∨
  (∃ k k1, out = [(RotationKind.rightLeft, k), (RotationKind.right, k1),
    (RotationKind.left, k)])

/-! Section: Specification vocabulary -/

/-- The in-order key sequence of a tree: `Inorder` run on an empty vector. -/
def inorderSeq (t : Node α) : List α := Inorder t []

/-- True height of a subtree, recomputed from its shape (empty = -1, leaf = 0). -/
def realHeight : Node α → Int
  | Node.null => -1
  | Node.mk _ l r _ => 1 + max (realHeight l) (realHeight r)

/-- Height correctness: every node's stored height equals
`1 + max(height(left), height(right))`, an absent child counting as -1. -/
def HeightOK : Node α → Prop
  | Node.null => True
  | Node.mk _ l r h => HeightOK l ∧ HeightOK r ∧ h = 1 + max (GetHeight l) (GetHeight r)

/-- Every node's stored height is the true height of the subtree below it. -/
def HeightTrue : Node α → Prop
  | Node.null => True
  | Node.mk d l r h => HeightTrue l ∧ HeightTrue r ∧ h = realHeight (Node.mk d l r h)

/-- Balance invariant: every node's balance factor `height(left) - height(right)`,
read from the stored heights as `GetBalance` does, lies in {-1, 0, +1}. -/
def Balanced : Node α → Prop
  | Node.null => True
  | Node.mk d l r h =>
      Balanced l ∧ Balanced r ∧
        -1 ≤ GetBalance (Node.mk d l r h) ∧ GetBalance (Node.mk d l r h) ≤ 1

/-- Balance invariant on true heights: at every node the true heights of the two
subtrees differ by at most one. -/
def BalancedReal : Node α → Prop
  | Node.null => True
  | Node.mk _ l r _ =>
      BalancedReal l ∧ BalancedReal r ∧ |realHeight l - realHeight r| ≤ 1

/-- BST ordering invariant: at every node all keys of the left subtree are strictly
less than the node's key and all keys of the right subtree strictly greater. -/
def BST : Node α → Prop
  | Node.null => True
  | Node.mk d l r _ =>
      BST l ∧ BST r ∧ (∀ x ∈ inorderSeq l, x < d) ∧ (∀ x ∈ inorderSeq r, d < x)

/-- Valid AVL tree: BST-ordered, every stored height correct, every balance factor in
{-1, 0, +1}. -/
def Valid (t : Node α) : Prop := BST t ∧ HeightOK t ∧ Balanced t

/-- Strictly ascending sequence. -/
def Ascending (xs : List α) : Prop := xs.Pairwise (fun a b => a < b)

/-- The sequence `xs` with `v` put at its sorted position; a sequence that already
holds `v` at that position is returned as it is. -/
def insertKey (v : α) : List α → List α
  | [] => [v]
  | x :: xs =>
      if v = x then x :: xs
      else if v < x then v :: x :: xs
      else x :: insertKey v xs

/-- One public mutating operation of the class. -/
inductive Op (α : Type) where
  | insert (v : α) : Op α
  | remove (v : α) : Op α
  deriving DecidableEq

/-- Performs one operation on the tree. -/
def AVLTree.apply (t : AVLTree α) : Op α → Option (AVLTree α)
  | Op.insert v => t.Insert v
  | Op.remove v => t.Remove v

/-- Performs a finite sequence of operations, first to last. -/
def AVLTree.run : List (Op α) → AVLTree α → Option (AVLTree α)
  | [], t => some t
  | op :: ops, t =>
      match t.apply op with
      | none => none
      | some t1 => AVLTree.run ops t1

/-- Number of `Insert` operations of the sequence whose key was absent from the tree
when the operation was performed. -/
def effectiveInserts : List (Op α) → AVLTree α → Nat
  | [], _ => 0
  | op :: ops, t =>
      (match op with
        | Op.insert v => if v ∈ inorderSeq t.root then 0 else 1
        | Op.remove _ => 0) +
      (match t.apply op with
        | none => 0
        | some t1 => effectiveInserts ops t1)

/-- Number of `Remove` operations of the sequence whose key was present in the tree
when the operation was performed. -/
def effectiveRemoves : List (Op α) → AVLTree α → Nat
  | [], _ => 0
  | op :: ops, t =>
      (match op with
        | Op.insert _ => 0
        | Op.remove v => if v ∈ inorderSeq t.root then 1 else 0) +
      (match t.apply op with
        | none => 0
        | some t1 => effectiveRemoves ops t1)

instance HeightOK.dec : (t : Node α) → Decidable (HeightOK t)
  | Node.null => isTrue trivial
  | Node.mk _ l r h =>
      have := HeightOK.dec l
      have := HeightOK.dec r
      inferInstanceAs (Decidable (HeightOK l ∧ HeightOK r ∧ h = 1 + max (GetHeight l) (GetHeight r)))

instance HeightTrue.dec : (t : Node α) → Decidable (HeightTrue t)
  | Node.null => isTrue trivial
  | Node.mk d l r h =>
      have := HeightTrue.dec l
      have := HeightTrue.dec r
      inferInstanceAs (Decidable (HeightTrue l ∧ HeightTrue r ∧ h = realHeight (Node.mk d l r h)))

instance Balanced.dec : (t : Node α) → Decidable (Balanced t)
  | Node.null => isTrue trivial
  | Node.mk d l r h =>
      have := Balanced.dec l
      have := Balanced.dec r
      inferInstanceAs (Decidable (Balanced l ∧ Balanced r ∧
        -1 ≤ GetBalance (Node.mk d l r h) ∧ GetBalance (Node.mk d l r h) ≤ 1))

instance BalancedReal.dec : (t : Node α) → Decidable (BalancedReal t)
  | Node.null => isTrue trivial
  | Node.mk _ l r _ =>
      have := BalancedReal.dec l
      have := BalancedReal.dec r
      inferInstanceAs (Decidable (BalancedReal l ∧ BalancedReal r ∧
        |realHeight l - realHeight r| ≤ 1))

instance BST.dec : (t : Node α) → Decidable (BST t)
  | Node.null => isTrue trivial
  | Node.mk d l r _ =>
      have := BST.dec l
      have := BST.dec r
      inferInstanceAs (Decidable (BST l ∧ BST r ∧ (∀ x ∈ inorderSeq l, x < d) ∧
        (∀ x ∈ inorderSeq r, d < x)))

instance Valid.dec (t : Node α) : Decidable (Valid t) :=
  inferInstanceAs (Decidable (BST t ∧ HeightOK t ∧ Balanced t))

instance Ascending.dec (xs : List α) : Decidable (Ascending xs) :=
  inferInstanceAs (Decidable (xs.Pairwise (fun a b => a < b)))

end Code

/-- Tree built from the keys 4, 2, 5, 1, 3 (sample tree of the removal demo). -/
def sample5 : Node Int :=
  Node.mk 4 (Node.mk 2 (Node.new 1) (Node.new 3) 1) (Node.new 5) 2

/-- Tree built by inserting 2, 1, 4, 3, 5 into an empty tree. -/
def built21435 : Node Int :=
  Node.mk 2 (Node.new 1) (Node.mk 4 (Node.new 3) (Node.new 5) 1) 2

/-- Tree built by inserting 3, 1, 4, 2 into an empty tree. -/
def built3142 : Node Int :=
  Node.mk 3 (Node.mk 1 Node.null (Node.new 2) 1) (Node.new 4) 2

/-- Tree built by inserting 2, 1, 4, 3 into an empty tree. -/
def built2143 : Node Int :=
  Node.mk 2 (Node.new 1) (Node.mk 4 (Node.new 3) Node.null 1) 2

/-- The tree with root `b`, left leaf `a` and right leaf `c`. -/
def threeNode {α : Type} (a b c : α) : Node α := Node.mk b (Node.new a) (Node.new c) 1

/-- Minimal-node AVL tree of height 4 on the keys 1 to 12: the left subtree of the root
has height 3, the right one height 2. -/
def fib4 : Node Int :=
  Node.mk 8
    (Node.mk 5
      (Node.mk 3 (Node.mk 2 (Node.new 1) Node.null 1) (Node.new 4) 2)
      (Node.mk 7 (Node.new 6) Node.null 1) 3)
    (Node.mk 11 (Node.mk 10 (Node.new 9) Node.null 1) (Node.new 12) 2) 4

/-- The tree `fib4` after removal of the key 12. -/
def fib4Removed : Node Int :=
  Node.mk 5
    (Node.mk 3 (Node.mk 2 (Node.new 1) Node.null 1) (Node.new 4) 2)
    (Node.mk 8 (Node.mk 7 (Node.new 6) Node.null 1)
      (Node.mk 10 (Node.new 9) (Node.new 11) 1) 2) 3

/-- Result of removing 5 from the tree built from 4, 2, 5, 1, 3. -/
def sample5Removed : Node Int :=
  Node.mk 2 (Node.new 1) (Node.mk 4 (Node.new 3) Node.null 1) 2

/-- The node `Rebalance` is called on at key 4 while 5 is removed from the tree built from
4, 2, 5, 1, 3: the right child is gone, the left child is the subtree 2 with leaves 1
and 3. -/
def sample5Pivot : Node Int :=
  Node.mk 4 (Node.mk 2 (Node.new 1) (Node.new 3) 1) Node.null 2

end AVL

/-! Section: Basic facts about the embedding -/

namespace AVL

section Lemmas

set_option linter.unusedSectionVars false

variable {α : Type} [LinearOrder α]

theorem Inorder_append (t : Node α) (vs : List α) : Inorder t vs = vs ++ inorderSeq t := by
  induction t generalizing vs with
  | null => simp [Inorder, inorderSeq]
  | mk d l r h ihl ihr =>
    simp only [inorderSeq, Inorder]
    rw [ihr (Inorder l vs ++ [d]), ihr (Inorder l [] ++ [d]), ihl vs, ihl []]
    simp [inorderSeq]

@[simp]
theorem inorderSeq_null : inorderSeq (Node.null : Node α) = [] := rfl

@[simp]
theorem inorderSeq_mk (d : α) (l r : Node α) (h : Int) :
    inorderSeq (Node.mk d l r h) = inorderSeq l ++ d :: inorderSeq r := by
  show Inorder r (Inorder l [] ++ [d]) = _
  rw [Inorder_append r, Inorder_append l]
  simp

@[simp]
theorem inorderSeq_new (v : α) : inorderSeq (Node.new v) = [v] := by
  simp [Node.new]

theorem inorderSeq_eq_nil {t : Node α} (h : inorderSeq t = []) : t = Node.null := by
  cases t with
  | null => rfl
  | mk d l r h0 => simp at h

@[simp]
theorem GetHeight_null : GetHeight (Node.null : Node α) = -1 := rfl

@[simp]
theorem GetHeight_mk (d : α) (l r : Node α) (h : Int) :
    GetHeight (Node.mk d l r h) = h := rfl

@[simp]
theorem GetBalance_null : GetBalance (Node.null : Node α) = 0 := rfl

@[simp]
theorem GetBalance_mk (d : α) (l r : Node α) (h : Int) :
    GetBalance (Node.mk d l r h) = GetHeight l - GetHeight r := rfl

@[simp]
theorem UpdateHeight_mk (d : α) (l r : Node α) (h : Int) :
    UpdateHeight (Node.mk d l r h) = Node.mk d l r (1 + max (GetHeight l) (GetHeight r)) := rfl

theorem HeightOK.height_ge {t : Node α} (h : HeightOK t) : -1 ≤ GetHeight t := by
  induction t with
  | null => simp [GetHeight]
  | mk d l r h0 ihl ihr =>
    obtain ⟨h1, h2, h3⟩ := h
    have := ihl h1
    have := ihr h2
    simp only [GetHeight_mk]
    omega

theorem HeightOK.mk_height_nonneg {d : α} {l r : Node α} {h0 : Int}
    (h : HeightOK (Node.mk d l r h0)) : 0 ≤ h0 := by
  obtain ⟨h1, h2, h3⟩ := h
  have := h1.height_ge
  have := h2.height_ge
  omega

theorem HeightOK.height_eq_real {t : Node α} (h : HeightOK t) : GetHeight t = realHeight t := by
  induction t with
  | null => rfl
  | mk d l r h0 ihl ihr =>
    obtain ⟨h1, h2, h3⟩ := h
    simp only [GetHeight_mk, realHeight, h3, ihl h1, ihr h2]

theorem HeightOK.heightTrue {t : Node α} (h : HeightOK t) : HeightTrue t := by
  induction t with
  | null => trivial
  | mk d l r h0 ihl ihr =>
    obtain ⟨h1, h2, h3⟩ := h
    refine ⟨ihl h1, ihr h2, ?_⟩
    simp only [realHeight, h3, h1.height_eq_real, h2.height_eq_real]

theorem balancedReal_of {t : Node α} (h : HeightOK t) (b : Balanced t) : BalancedReal t := by
  induction t with
  | null => trivial
  | mk d l r h0 ihl ihr =>
    obtain ⟨h1, h2, h3⟩ := h
    obtain ⟨b1, b2, b3, b4⟩ := b
    refine ⟨ihl h1 b1, ihr h2 b2, ?_⟩
    simp only [GetBalance_mk, h1.height_eq_real, h2.height_eq_real] at b3 b4
    rw [abs_le]
    constructor <;> omega

/-- What `Rebalance (UpdateHeight n)` does on a node whose two subtrees are
height-correct and balanced and whose heights differ by at most two. -/
theorem rebalance_spec (d : α) (l r : Node α) (h : Int)
    (hl : HeightOK l) (hr : HeightOK r) (bl : Balanced l) (br : Balanced r)
    (hd1 : GetHeight l - GetHeight r ≤ 2) (hd2 : -2 ≤ GetHeight l - GetHeight r) :
    ∃ t, Rebalance (UpdateHeight (Node.mk d l r h)) = some t ∧ HeightOK t ∧ Balanced t ∧
      inorderSeq t = inorderSeq l ++ d :: inorderSeq r ∧
      max (GetHeight l) (GetHeight r) ≤ GetHeight t ∧
      GetHeight t ≤ 1 + max (GetHeight l) (GetHeight r) ∧
      (GetHeight l - GetHeight r ≤ 1 → -1 ≤ GetHeight l - GetHeight r →
        t = Node.mk d l r (1 + max (GetHeight l) (GetHeight r))) ∧
      (GetHeight l - GetHeight r = 2 → GetBalance l ≠ 0 → GetHeight t = GetHeight l) ∧
      (GetHeight l - GetHeight r = -2 → GetBalance r ≠ 0 → GetHeight t = GetHeight r) := by
  have gl := hl.height_ge
  have gr := hr.height_ge
  by_cases c1 : GetHeight l - GetHeight r > 1
  · -- left heavy
    cases l with
    | null => simp only [GetHeight_null] at c1 gr; omega
    | mk dl ll lr h1 =>
      obtain ⟨hll, hlr, e1⟩ := hl
      obtain ⟨bll, blr, b1, b2⟩ := bl
      have gll := hll.height_ge
      have glr := hlr.height_ge
      simp only [GetHeight_mk, GetHeight_null, GetBalance_mk] at *
      by_cases c2 : GetHeight ll - GetHeight lr ≥ 0
      · refine ⟨Node.mk dl ll (Node.mk d lr r (1 + max (GetHeight lr) (GetHeight r)))
          (1 + max (GetHeight ll) (1 + max (GetHeight lr) (GetHeight r))), ?_, ?_, ?_, ?_, ?_⟩
        · simp [Rebalance, RotateRight, c1, c2]
        · exact ⟨hll, ⟨hlr, hr, rfl⟩, rfl⟩
        · refine ⟨bll, ⟨blr, br, ?_, ?_⟩, ?_, ?_⟩ <;> simp only [GetBalance_mk, GetHeight_mk] <;> omega
        · simp
        · simp only [GetHeight_mk]; omega
      · cases lr with
        | null => simp only [GetHeight_null] at c2 gll; omega
        | mk dlr lrl lrr h2 =>
          obtain ⟨hlrl, hlrr, e2⟩ := hlr
          obtain ⟨blrl, blrr, b3, b4⟩ := blr
          have := hlrl.height_ge
          have := hlrr.height_ge
          simp only [GetHeight_mk, GetHeight_null, GetBalance_mk] at *
          refine ⟨Node.mk dlr (Node.mk dl ll lrl (1 + max (GetHeight ll) (GetHeight lrl)))
            (Node.mk d lrr r (1 + max (GetHeight lrr) (GetHeight r)))
            (1 + max (1 + max (GetHeight ll) (GetHeight lrl))
              (1 + max (GetHeight lrr) (GetHeight r))), ?_, ?_, ?_, ?_, ?_⟩
          · simp [Rebalance, RotateLeftRight, RotateLeft, RotateRight, c1, c2]
          · exact ⟨⟨hll, hlrl, rfl⟩, ⟨hlrr, hr, rfl⟩, rfl⟩
          · refine ⟨⟨bll, blrl, ?_, ?_⟩, ⟨blrr, br, ?_, ?_⟩, ?_, ?_⟩ <;>
              simp only [GetBalance_mk, GetHeight_mk] <;> omega
          · simp
          · simp only [GetHeight_mk]; omega
  · by_cases c3 : GetHeight l - GetHeight r < -1
    · -- right heavy
      cases r with
      | null => simp only [GetHeight_null] at c3 gl; omega
      | mk dr rl rr h1 =>
        obtain ⟨hrl, hrr, e1⟩ := hr
        obtain ⟨brl, brr, b1, b2⟩ := br
        have grl := hrl.height_ge
        have grr := hrr.height_ge
        simp only [GetHeight_mk, GetHeight_null, GetBalance_mk] at *
        by_cases c2 : GetHeight rl - GetHeight rr ≤ 0
        · refine ⟨Node.mk dr (Node.mk d l rl (1 + max (GetHeight l) (GetHeight rl))) rr
            (1 + max (1 + max (GetHeight l) (GetHeight rl)) (GetHeight rr)), ?_, ?_, ?_, ?_, ?_⟩
          · simp [Rebalance, RotateLeft, c1, c2, c3]
          · exact ⟨⟨hl, hrl, rfl⟩, hrr, rfl⟩
          · refine ⟨⟨bl, brl, ?_, ?_⟩, brr, ?_, ?_⟩ <;> simp only [GetBalance_mk, GetHeight_mk] <;>
              omega
          · simp
          · simp only [GetHeight_mk]; omega
        · cases rl with
          | null => simp only [GetHeight_null] at c2 grr; omega
          | mk drl rll rlr h2 =>
            obtain ⟨hrll, hrlr, e2⟩ := hrl
            obtain ⟨brll, brlr, b3, b4⟩ := brl
            have := hrll.height_ge
            have := hrlr.height_ge
            simp only [GetHeight_mk, GetHeight_null, GetBalance_mk] at *
            refine ⟨Node.mk drl (Node.mk d l rll (1 + max (GetHeight l) (GetHeight rll)))
              (Node.mk dr rlr rr (1 + max (GetHeight rlr) (GetHeight rr)))
              (1 + max (1 + max (GetHeight l) (GetHeight rll))
                (1 + max (GetHeight rlr) (GetHeight rr))), ?_, ?_, ?_, ?_, ?_⟩
            · simp [Rebalance, RotateRightLeft, RotateLeft, RotateRight, c1, c2, c3]
            · exact ⟨⟨hl, hrll, rfl⟩, ⟨hrlr, hrr, rfl⟩, rfl⟩
            · refine ⟨⟨bl, brll, ?_, ?_⟩, ⟨brlr, brr, ?_, ?_⟩, ?_, ?_⟩ <;>
                simp only [GetBalance_mk, GetHeight_mk] <;> omega
            · simp
            · simp only [GetHeight_mk]; omega
    · refine ⟨Node.mk d l r (1 + max (GetHeight l) (GetHeight r)), ?_, ?_, ?_, ?_, ?_⟩
      · simp [Rebalance, c1, c3]
      · exact ⟨hl, hr, rfl⟩
      · refine ⟨bl, br, ?_, ?_⟩ <;> simp only [GetBalance_mk] <;> omega
      · simp
      · refine ⟨?_, ?_, fun _ _ => rfl, ?_, ?_⟩ <;> simp only [GetHeight_mk] <;> omega

/-! Subsection: Sorted sequences -/

theorem ascending_append_cons {l r : List α} {d : α} :
    Ascending (l ++ d :: r) ↔
      Ascending l ∧ Ascending r ∧ (∀ x ∈ l, x < d) ∧ (∀ x ∈ r, d < x) := by
  unfold Ascending
  rw [List.pairwise_append, List.pairwise_cons]
  constructor
  · rintro ⟨h1, ⟨h2, h3⟩, h4⟩
    exact ⟨h1, h3, fun x hx => h4 x hx d (List.mem_cons_self d r), h2⟩
  · rintro ⟨h1, h2, h3, h4⟩
    refine ⟨h1, ⟨h4, h2⟩, ?_⟩
    intro x hx y hy
    rcases List.mem_cons.mp hy with rfl | hy
    · exact h3 x hx
    · exact lt_trans (h3 x hx) (h4 y hy)

theorem bst_iff_ascending (t : Node α) : BST t ↔ Ascending (inorderSeq t) := by
  induction t with
  | null => simp [BST, Ascending]
  | mk d l r h ihl ihr =>
    rw [inorderSeq_mk, ascending_append_cons, ← ihl, ← ihr]
    rfl

theorem mem_insertKey {v x : α} {xs : List α} : x ∈ insertKey v xs ↔ x = v ∨ x ∈ xs := by
  induction xs with
  | nil => simp [insertKey]
  | cons y ys ih =>
    simp only [insertKey]
    split_ifs with h1 h2
    · subst h1
      simp only [List.mem_cons]
      tauto
    · simp
    · simp only [List.mem_cons, ih]
      tauto

theorem ascending_insertKey {v : α} {xs : List α} (h : Ascending xs) :
    Ascending (insertKey v xs) := by
  induction xs with
  | nil => simp [insertKey, Ascending]
  | cons y ys ih =>
    unfold Ascending at h ih ⊢
    rw [List.pairwise_cons] at h
    simp only [insertKey]
    split_ifs with h1 h2
    · exact List.pairwise_cons.mpr h
    · refine List.pairwise_cons.mpr ⟨?_, List.pairwise_cons.mpr h⟩
      intro a ha
      rcases List.mem_cons.mp ha with rfl | ha
      · exact h2
      · exact lt_trans h2 (h.1 a ha)
    · refine List.pairwise_cons.mpr ⟨?_, ih h.2⟩
      intro a ha
      rcases mem_insertKey.mp ha with rfl | ha
      · exact lt_of_le_of_ne (not_lt.mp h2) (Ne.symm h1)
      · exact h.1 a ha

theorem insertKey_append_of_lt {v d : α} (l r : List α) (h : v < d) :
    insertKey v (l ++ d :: r) = insertKey v l ++ d :: r := by
  induction l with
  | nil => simp [insertKey, h, ne_of_lt h]
  | cons y ys ih =>
    simp only [List.cons_append, insertKey]
    split_ifs <;> simp [ih]

theorem insertKey_append_of_gt {v : α} (l r : List α) (h : ∀ x ∈ l, x < v) :
    insertKey v (l ++ r) = l ++ insertKey v r := by
  induction l with
  | nil => simp
  | cons y ys ih =>
    have hy : y < v := h y (List.mem_cons_self y ys)
    have e := ih (fun x hx => h x (List.mem_cons_of_mem y hx))
    rw [List.cons_append, List.cons_append]
    simp only [insertKey, if_neg (ne_of_gt hy), if_neg (not_lt_of_gt hy), e]

theorem insertKey_eq_orderedInsert {v : α} {xs : List α} (h : v ∉ xs) :
    insertKey v xs = List.orderedInsert (fun a b => a ≤ b) v xs := by
  induction xs with
  | nil => simp [insertKey]
  | cons y ys ih =>
    have hne : v ≠ y := fun e => h (e ▸ List.mem_cons_self y ys)
    have hys : v ∉ ys := fun e => h (List.mem_cons_of_mem y e)
    simp only [insertKey, List.orderedInsert, if_neg hne]
    by_cases c : v < y
    · simp [c, le_of_lt c]
    · have : ¬ v ≤ y := fun hle => c (lt_of_le_of_ne hle hne)
      simp [c, this, ih hys]

theorem insertKey_of_mem {v : α} {xs : List α} (ha : Ascending xs) (h : v ∈ xs) :
    insertKey v xs = xs := by
  induction xs with
  | nil => simp at h
  | cons y ys ih =>
    unfold Ascending at ha ih
    rw [List.pairwise_cons] at ha
    simp only [insertKey]
    split_ifs with h1 h2
    · rfl
    · rcases List.mem_cons.mp h with e | e
      · exact absurd e h1
      · exact absurd (ha.1 v e) (not_lt_of_gt h2)
    · rcases List.mem_cons.mp h with e | e
      · exact absurd e h1
      · rw [ih ha.2 e]

theorem length_insertKey_of_not_mem {v : α} {xs : List α} (h : v ∉ xs) :
    (insertKey v xs).length = xs.length + 1 := by
  induction xs with
  | nil => simp [insertKey]
  | cons y ys ih =>
    have hne : v ≠ y := fun e => h (e ▸ List.mem_cons_self y ys)
    have hys : v ∉ ys := fun e => h (List.mem_cons_of_mem y e)
    simp only [insertKey, if_neg hne]
    split_ifs <;> simp [ih hys]

theorem ascending_nodup {xs : List α} (h : Ascending xs) : xs.Nodup :=
  List.Pairwise.imp (fun hab => ne_of_lt hab) h

theorem erase_append_cons_of_lt {v d : α} {l r : List α} (hr : ∀ x ∈ r, d < x) (h : v < d) :
    (l ++ d :: r).erase v = l.erase v ++ d :: r := by
  have hv : v ∉ d :: r := by
    intro hm
    rcases List.mem_cons.mp hm with e | e
    · exact absurd e (ne_of_lt h)
    · exact absurd (hr v e) (not_lt_of_gt h)
  by_cases c : v ∈ l
  · exact List.erase_append_left _ c
  · rw [List.erase_append_right _ c, List.erase_of_not_mem hv, List.erase_of_not_mem c]

theorem erase_append_cons_of_gt {v d : α} {l r : List α} (hl : ∀ x ∈ l, x < d) (h : d < v) :
    (l ++ d :: r).erase v = l ++ d :: r.erase v := by
  have c : v ∉ l := fun hm => absurd (hl v hm) (not_lt_of_gt h)
  rw [List.erase_append_right _ c, List.erase_cons_tail]
  simpa using ne_of_lt h

theorem erase_append_cons_self {d : α} {l r : List α} (hl : ∀ x ∈ l, x < d) :
    (l ++ d :: r).erase d = l ++ r := by
  have c : d ∉ l := fun hm => absurd (hl d hm) (lt_irrefl d)
  rw [List.erase_append_right _ c, List.erase_cons_head]

/-! Subsection: Insertion -/

/-- Main lemma on `InsertValue`: on a height-correct balanced tree it returns a
height-correct balanced tree whose height grew by at most one and whose in-order
sequence is that of the input with the key put in place. -/
theorem insert_spec (t : Node α) (v : α) (ht : HeightOK t) (bt : Balanced t) :
    ∃ t1, InsertValue t v = some t1 ∧ HeightOK t1 ∧ Balanced t1 ∧
      (GetHeight t1 = GetHeight t ∨ GetHeight t1 = GetHeight t + 1) ∧
      (Ascending (inorderSeq t) → inorderSeq t1 = insertKey v (inorderSeq t)) := by
  induction t with
  | null =>
    refine ⟨Node.new v, rfl, ⟨trivial, trivial, by simp⟩, ⟨trivial, trivial, by simp, by simp⟩,
      Or.inr (by simp [Node.new]), fun _ => by simp [insertKey]⟩
  | mk d l r h0 ihl ihr =>
    obtain ⟨hl, hr, e0⟩ := ht
    obtain ⟨bl, br, b1, b2⟩ := bt
    simp only [GetBalance_mk] at b1 b2
    by_cases c1 : v = d
    · subst c1
      refine ⟨Node.mk v l r h0, by simp [InsertValue], ⟨hl, hr, e0⟩, ⟨bl, br, b1, b2⟩,
        Or.inl rfl, fun ha => ?_⟩
      rw [inorderSeq_mk] at ha ⊢
      obtain ⟨_, _, h3, _⟩ := ascending_append_cons.mp ha
      rw [insertKey_append_of_gt _ _ h3]
      simp [insertKey]
    · by_cases c2 : v < d
      · obtain ⟨l1, el, hl1, bl1, hh, hi⟩ := ihl hl bl
        obtain ⟨t1, et, ht1, bt1, hs, hlo, hhi, hbal, _, _⟩ :=
          rebalance_spec d l1 r h0 hl1 hr bl1 br (by omega) (by omega)
        have hb : GetHeight l1 - GetHeight r ≤ 1 → -1 ≤ GetHeight l1 - GetHeight r →
            GetHeight t1 = 1 + max (GetHeight l1) (GetHeight r) := fun a b => by
          rw [hbal a b]; rfl
        refine ⟨t1, by simpa [InsertValue, c1, c2, el] using et, ht1, bt1, ?_, fun ha => ?_⟩
        · simp only [GetHeight_mk]
          omega
        · rw [inorderSeq_mk] at ha ⊢
          obtain ⟨a1, _, _, _⟩ := ascending_append_cons.mp ha
          rw [hs, hi a1, insertKey_append_of_lt _ _ c2]
      · obtain ⟨r1, er, hr1, br1, hh, hi⟩ := ihr hr br
        obtain ⟨t1, et, ht1, bt1, hs, hlo, hhi, hbal, _, _⟩ :=
          rebalance_spec d l r1 h0 hl hr1 bl br1 (by omega) (by omega)
        have hb : GetHeight l - GetHeight r1 ≤ 1 → -1 ≤ GetHeight l - GetHeight r1 →
            GetHeight t1 = 1 + max (GetHeight l) (GetHeight r1) := fun a b => by
          rw [hbal a b]; rfl
        have c3 : d < v := lt_of_le_of_ne (not_lt.mp c2) (Ne.symm c1)
        refine ⟨t1, by simpa [InsertValue, c1, c2, er] using et, ht1, bt1, ?_, fun ha => ?_⟩
        · simp only [GetHeight_mk]
          omega
        · rw [inorderSeq_mk] at ha ⊢
          obtain ⟨_, a2, a3, _⟩ := ascending_append_cons.mp ha
          rw [hs, hi a2, insertKey_append_of_gt _ _ (fun x hx => lt_trans (a3 x hx) c3)]
          simp [insertKey, c1, c2]

/-! Subsection: Removal -/

theorem findMinimum_spec (d : α) (l r : Node α) (h : Int) :
    ∃ m lm rm hm rest, FindMinimum (Node.mk d l r h) = some (Node.mk m lm rm hm) ∧
      inorderSeq (Node.mk d l r h) = m :: rest := by
  induction l generalizing d r h with
  | null => exact ⟨d, Node.null, r, h, inorderSeq r, by simp [FindMinimum, Node.isNull], by simp⟩
  | mk dl ll lr hl ihl _ =>
    obtain ⟨m, lm, rm, hm, rest, e1, e2⟩ := ihl dl lr hl
    refine ⟨m, lm, rm, hm, rest ++ d :: inorderSeq r, ?_, ?_⟩
    · simp only [FindMinimum, Node.isNull]
      simpa [FindMinimum, Node.isNull] using e1
    · rw [inorderSeq_mk, e2]
      simp

/-- Main lemma on `RemoveNode`: on a height-correct balanced tree it returns a
height-correct balanced tree whose height shrank by at most one and whose in-order
sequence is that of the input with the key erased. -/
theorem remove_spec (t : Node α) (v : α) (ht : HeightOK t) (bt : Balanced t) :
    ∃ t1, RemoveNode t v = some t1 ∧ HeightOK t1 ∧ Balanced t1 ∧
      (GetHeight t1 = GetHeight t ∨ GetHeight t1 = GetHeight t - 1) ∧
      (Ascending (inorderSeq t) → inorderSeq t1 = (inorderSeq t).erase v) := by
  induction t generalizing v with
  | null => exact ⟨Node.null, rfl, trivial, trivial, Or.inl rfl, fun _ => by simp⟩
  | mk d l r h0 ihl ihr =>
    obtain ⟨hl, hr, e0⟩ := ht
    obtain ⟨bl, br, b1, b2⟩ := bt
    simp only [GetBalance_mk] at b1 b2
    by_cases c1 : v = d
    · subst c1
      cases l with
      | null =>
        cases r with
        | null =>
          refine ⟨Node.null, by simp [RemoveNode, Node.isNull], trivial, trivial, Or.inr ?_,
            fun _ => by simp⟩
          simp only [GetHeight_null, GetHeight_mk] at e0 ⊢
          omega
        | mk dr rl rr h1 =>
          refine ⟨Node.mk dr rl rr h1, by simp [RemoveNode, Node.isNull], hr, br, Or.inr ?_,
            fun _ => by simp⟩
          have := hr.mk_height_nonneg
          simp only [GetHeight_null, GetHeight_mk] at e0 ⊢
          omega
      | mk dl ll lr h1 =>
        cases r with
        | null =>
          refine ⟨Node.mk dl ll lr h1, by simp [RemoveNode, Node.isNull], hl, bl, Or.inr ?_,
            fun ha => ?_⟩
          · have := hl.mk_height_nonneg
            simp only [GetHeight_null, GetHeight_mk] at e0 ⊢
            omega
          · rw [inorderSeq_mk v] at ha ⊢
            obtain ⟨_, _, a3, _⟩ := ascending_append_cons.mp ha
            rw [erase_append_cons_self a3]
            simp
        | mk dr rl rr h2 =>
          obtain ⟨m, lm, rm, hm, rest, e1, e2⟩ := findMinimum_spec dr rl rr h2
          obtain ⟨r1, er, hr1, br1, hh, hi⟩ := ihr m hr br
          have nl : (Node.mk dl ll lr h1).isNull = false := rfl
          have nr : (Node.mk dr rl rr h2).isNull = false := rfl
          have gl := hl.mk_height_nonneg
          have gr := hr.mk_height_nonneg
          generalize Node.mk dl ll lr h1 = L at *
          generalize Node.mk dr rl rr h2 = R at *
          obtain ⟨t1, et, ht1, bt1, hs, hlo, hhi, hbal, _, _⟩ :=
            rebalance_spec m L r1 h0 hl hr1 bl br1 (by omega) (by omega)
          have hb : GetHeight L - GetHeight r1 ≤ 1 → -1 ≤ GetHeight L - GetHeight r1 →
              GetHeight t1 = 1 + max (GetHeight L) (GetHeight r1) :=
            fun a b => by rw [hbal a b]; rfl
          refine ⟨t1, ?_, ht1, bt1, ?_, fun ha => ?_⟩
          · simpa [RemoveNode, nl, nr, e1, er] using et
          · simp only [GetHeight_mk]
            omega
          · rw [inorderSeq_mk v] at ha ⊢
            obtain ⟨_, a2, a3, _⟩ := ascending_append_cons.mp ha
            rw [erase_append_cons_self a3, hs, hi a2, e2]
            simp
    · by_cases c2 : v < d
      · obtain ⟨l1, el, hl1, bl1, hh, hi⟩ := ihl v hl bl
        obtain ⟨t1, et, ht1, bt1, hs, hlo, hhi, hbal, _, _⟩ :=
          rebalance_spec d l1 r h0 hl1 hr bl1 br (by omega) (by omega)
        have hb : GetHeight l1 - GetHeight r ≤ 1 → -1 ≤ GetHeight l1 - GetHeight r →
            GetHeight t1 = 1 + max (GetHeight l1) (GetHeight r) := fun a b => by
          rw [hbal a b]; rfl
        refine ⟨t1, by simpa [RemoveNode, c1, c2, el] using et, ht1, bt1, ?_, fun ha => ?_⟩
        · simp only [GetHeight_mk]
          omega
        · rw [inorderSeq_mk] at ha ⊢
          obtain ⟨a1, _, _, a4⟩ := ascending_append_cons.mp ha
          rw [hs, hi a1, erase_append_cons_of_lt a4 c2]
      · obtain ⟨r1, er, hr1, br1, hh, hi⟩ := ihr v hr br
        obtain ⟨t1, et, ht1, bt1, hs, hlo, hhi, hbal, _, _⟩ :=
          rebalance_spec d l r1 h0 hl hr1 bl br1 (by omega) (by omega)
        have hb : GetHeight l - GetHeight r1 ≤ 1 → -1 ≤ GetHeight l - GetHeight r1 →
            GetHeight t1 = 1 + max (GetHeight l) (GetHeight r1) := fun a b => by
          rw [hbal a b]; rfl
        have c3 : d < v := lt_of_le_of_ne (not_lt.mp c2) (Ne.symm c1)
        refine ⟨t1, by simpa [RemoveNode, c1, c2, er] using et, ht1, bt1, ?_, fun ha => ?_⟩
        · simp only [GetHeight_mk]
          omega
        · rw [inorderSeq_mk] at ha ⊢
          obtain ⟨_, a2, a3, _⟩ := ascending_append_cons.mp ha
          rw [hs, hi a2, erase_append_cons_of_gt a3 c3]

/-! Subsection: Validity, operation sequences and no-op cases -/

theorem ascending_erase {xs : List α} (v : α) (h : Ascending xs) : Ascending (xs.erase v) :=
  List.Pairwise.sublist (List.erase_sublist v xs) h

theorem insert_valid (t : Node α) (v : α) (h : Valid t) :
    ∃ t1, InsertValue t v = some t1 ∧ Valid t1 ∧
      inorderSeq t1 = insertKey v (inorderSeq t) ∧
      (GetHeight t1 = GetHeight t ∨ GetHeight t1 = GetHeight t + 1) := by
  obtain ⟨hb, hh, hbal⟩ := h
  obtain ⟨t1, e, h1, b1, hg, hi⟩ := insert_spec t v hh hbal
  have ha := (bst_iff_ascending t).mp hb
  refine ⟨t1, e, ⟨(bst_iff_ascending t1).mpr ?_, h1, b1⟩, hi ha, hg⟩
  rw [hi ha]
  exact ascending_insertKey ha

theorem remove_valid (t : Node α) (v : α) (h : Valid t) :
    ∃ t1, RemoveNode t v = some t1 ∧ Valid t1 ∧
      inorderSeq t1 = (inorderSeq t).erase v ∧
      (GetHeight t1 = GetHeight t ∨ GetHeight t1 = GetHeight t - 1) := by
  obtain ⟨hb, hh, hbal⟩ := h
  obtain ⟨t1, e, h1, b1, hg, hi⟩ := remove_spec t v hh hbal
  have ha := (bst_iff_ascending t).mp hb
  refine ⟨t1, e, ⟨(bst_iff_ascending t1).mpr ?_, h1, b1⟩, hi ha, hg⟩
  rw [hi ha]
  exact ascending_erase v ha

theorem valid_null : Valid (Node.null : Node α) := ⟨trivial, trivial, trivial⟩

theorem traverse_eq (t : AVLTree α) : t.Traverse = inorderSeq t.root := by
  cases t with
  | mk root =>
    cases root with
    | null => rfl
    | mk d l r h => rfl

theorem removeNode_at_root_one_child (d : α) (c : Node α) (h : Int) :
    RemoveNode (Node.mk d c Node.null h) d = some c ∧
      RemoveNode (Node.mk d Node.null c h) d = some c := by
  cases c <;> simp [RemoveNode, Node.isNull]

theorem apply_valid (t : AVLTree α) (op : Op α) (h : Valid t.root) :
    ∃ t1, t.apply op = some t1 ∧ Valid t1.root ∧
      inorderSeq t1.root =
        (match op with
          | Op.insert v => insertKey v (inorderSeq t.root)
          | Op.remove v => (inorderSeq t.root).erase v) := by
  cases op with
  | insert v =>
    obtain ⟨r, e, hv, hs, _⟩ := insert_valid t.root v h
    exact ⟨⟨r⟩, by simp [AVLTree.apply, AVLTree.Insert, e], hv, hs⟩
  | remove v =>
    obtain ⟨r, e, hv, hs, _⟩ := remove_valid t.root v h
    exact ⟨⟨r⟩, by simp [AVLTree.apply, AVLTree.Remove, e], hv, hs⟩

theorem run_valid (ops : List (Op α)) (t : AVLTree α) (h : Valid t.root) :
    ∃ t1, AVLTree.run ops t = some t1 ∧ Valid t1.root := by
  induction ops generalizing t with
  | nil => exact ⟨t, rfl, h⟩
  | cons op ops ih =>
    obtain ⟨t1, e, hv, _⟩ := apply_valid t op h
    obtain ⟨t2, e2, hv2⟩ := ih t1 hv
    exact ⟨t2, by simp [AVLTree.run, e, e2], hv2⟩

theorem run_append (a b : List (Op α)) (t : AVLTree α) :
    AVLTree.run (a ++ b) t =
      (match AVLTree.run a t with
        | none => none
        | some t1 => AVLTree.run b t1) := by
  induction a generalizing t with
  | nil => rfl
  | cons op ops ih =>
    simp only [List.cons_append, AVLTree.run]
    cases t.apply op with
    | none => rfl
    | some t1 => exact ih t1

theorem run_inserts (ks : List α) (t : AVLTree α) (h : Valid t.root) :
    ∃ t1, AVLTree.run (ks.map Op.insert) t = some t1 ∧ Valid t1.root ∧
      ∀ x, x ∈ inorderSeq t1.root ↔ x ∈ inorderSeq t.root ∨ x ∈ ks := by
  induction ks generalizing t with
  | nil => exact ⟨t, rfl, h, by simp⟩
  | cons k ks ih =>
    obtain ⟨t1, e, hv, hs⟩ := apply_valid t (Op.insert k) h
    obtain ⟨t2, e2, hv2, hm⟩ := ih t1 hv
    refine ⟨t2, by simp [AVLTree.run, e, e2], hv2, fun x => ?_⟩
    rw [hm x, hs]
    simp only [mem_insertKey, List.mem_cons]
    tauto

theorem run_removes (ps : List α) (t : AVLTree α) (h : Valid t.root) :
    ∃ t1, AVLTree.run (ps.map Op.remove) t = some t1 ∧ Valid t1.root ∧
      ∀ x, x ∈ inorderSeq t1.root ↔ x ∈ inorderSeq t.root ∧ x ∉ ps := by
  induction ps generalizing t with
  | nil => exact ⟨t, rfl, h, by simp⟩
  | cons k ks ih =>
    obtain ⟨t1, e, hv, hs⟩ := apply_valid t (Op.remove k) h
    obtain ⟨t2, e2, hv2, hm⟩ := ih t1 hv
    refine ⟨t2, by simp [AVLTree.run, e, e2], hv2, fun x => ?_⟩
    have nd : (inorderSeq t.root).Nodup := ascending_nodup ((bst_iff_ascending _).mp h.1)
    rw [hm x, hs]
    simp only [nd.mem_erase_iff, List.mem_cons]
    tauto

theorem insert_present (t : Node α) (v : α) (h : Valid t) (hv : v ∈ inorderSeq t) :
    InsertValue t v = some t := by
  induction t with
  | null => simp at hv
  | mk d l r h0 ihl ihr =>
    obtain ⟨⟨bl, br, o1, o2⟩, ⟨hl, hr, e0⟩, ⟨cl, cr, b1, b2⟩⟩ := h
    simp only [GetBalance_mk] at b1 b2
    by_cases c1 : v = d
    · simp [InsertValue, c1]
    · rw [inorderSeq_mk, List.mem_append, List.mem_cons] at hv
      have nb1 : ¬ GetHeight l - GetHeight r > 1 := by omega
      have nb2 : ¬ GetHeight l - GetHeight r < -1 := by omega
      by_cases c2 : v < d
      · have hm : v ∈ inorderSeq l := by
          rcases hv with hv | hv | hv
          · exact hv
          · exact absurd hv c1
          · exact absurd (o2 v hv) (not_lt_of_gt c2)
        simp [InsertValue, c1, c2, ihl ⟨bl, hl, cl⟩ hm, Rebalance, nb1, nb2, ← e0]
      · have hm : v ∈ inorderSeq r := by
          rcases hv with hv | hv | hv
          · exact absurd (o1 v hv) c2
          · exact absurd hv c1
          · exact hv
        simp [InsertValue, c1, c2, ihr ⟨br, hr, cr⟩ hm, Rebalance, nb1, nb2, ← e0]

theorem remove_absent (t : Node α) (v : α) (h : Valid t) (hv : v ∉ inorderSeq t) :
    RemoveNode t v = some t := by
  induction t with
  | null => rfl
  | mk d l r h0 ihl ihr =>
    obtain ⟨⟨bl, br, o1, o2⟩, ⟨hl, hr, e0⟩, ⟨cl, cr, b1, b2⟩⟩ := h
    simp only [GetBalance_mk] at b1 b2
    rw [inorderSeq_mk, List.mem_append, List.mem_cons] at hv
    have c1 : ¬ v = d := fun e => hv (Or.inr (Or.inl e))
    have m1 : v ∉ inorderSeq l := fun e => hv (Or.inl e)
    have m2 : v ∉ inorderSeq r := fun e => hv (Or.inr (Or.inr e))
    have nb1 : ¬ GetHeight l - GetHeight r > 1 := by omega
    have nb2 : ¬ GetHeight l - GetHeight r < -1 := by omega
    by_cases c2 : v < d
    · simp [RemoveNode, c1, c2, ihl ⟨bl, hl, cl⟩ m1, Rebalance, nb1, nb2, ← e0]
    · simp [RemoveNode, c1, c2, ihr ⟨br, hr, cr⟩ m2, Rebalance, nb1, nb2, ← e0]

theorem run_count (ops : List (Op α)) (t : AVLTree α) (h : Valid t.root) :
    ∃ t1, AVLTree.run ops t = some t1 ∧ Valid t1.root ∧
      (inorderSeq t1.root).length + effectiveRemoves ops t =
        (inorderSeq t.root).length + effectiveInserts ops t := by
  induction ops generalizing t with
  | nil => exact ⟨t, rfl, h, rfl⟩
  | cons op ops ih =>
    obtain ⟨t1, e, hv, hs⟩ := apply_valid t op h
    obtain ⟨t2, e2, hv2, hc⟩ := ih t1 hv
    refine ⟨t2, by simp [AVLTree.run, e, e2], hv2, ?_⟩
    have ha := (bst_iff_ascending _).mp h.1
    simp only [effectiveRemoves, effectiveInserts, e]
    cases op with
    | insert v =>
      simp only at hs ⊢
      by_cases c : v ∈ inorderSeq t.root
      · rw [insertKey_of_mem ha c] at hs
        rw [hs] at hc
        simp only [if_pos c]
        omega
      · have hl := length_insertKey_of_not_mem c
        rw [← hs] at hl
        simp only [if_neg c]
        omega
    | remove v =>
      simp only at hs ⊢
      by_cases c : v ∈ inorderSeq t.root
      · have hl := List.length_erase_of_mem c
        have hp := List.length_pos_of_mem c
        rw [← hs] at hl
        simp only [if_pos c]
        omega
      · rw [List.erase_of_not_mem c] at hs
        rw [hs] at hc
        simp only [if_neg c]
        omega

/-! Subsection: Lookup, minimum and maximum -/

theorem found_iff_mem (t : Node α) (v : α) (h : BST t) :
    Found t v = true ↔ v ∈ inorderSeq t := by
  induction t with
  | null => simp [Found]
  | mk d l r h0 ihl ihr =>
    obtain ⟨bl, br, o1, o2⟩ := h
    rw [inorderSeq_mk, List.mem_append, List.mem_cons]
    by_cases c1 : v = d
    · simp [Found, c1]
    · by_cases c2 : v < d
      · simp only [Found, if_neg c1, if_pos c2, ihl bl]
        constructor
        · exact Or.inl
        · rintro (hm | hm | hm)
          · exact hm
          · exact absurd hm c1
          · exact absurd (o2 v hm) (not_lt_of_gt c2)
      · simp only [Found, if_neg c1, if_neg c2, ihr br]
        constructor
        · exact fun hm => Or.inr (Or.inr hm)
        · rintro (hm | hm | hm)
          · exact absurd (o1 v hm) c2
          · exact absurd hm c1
          · exact hm

theorem findMaximum_spec (d : α) (l r : Node α) (h : Int) :
    ∃ m lm rm hm rest, FindMaximum (Node.mk d l r h) = some (Node.mk m lm rm hm) ∧
      inorderSeq (Node.mk d l r h) = rest ++ [m] := by
  induction r generalizing d l h with
  | null => exact ⟨d, l, Node.null, h, inorderSeq l, by simp [FindMaximum, Node.isNull], by simp⟩
  | mk dr rl rr hr _ ihr =>
    obtain ⟨m, lm, rm, hm, rest, e1, e2⟩ := ihr dr rl hr
    refine ⟨m, lm, rm, hm, inorderSeq l ++ d :: rest, ?_, ?_⟩
    · simp only [FindMaximum, Node.isNull]
      simpa [FindMaximum, Node.isNull] using e1
    · rw [inorderSeq_mk, e2]
      simp

theorem findMin_spec (d : α) (l r : Node α) (h : Int) :
    ∃ lo rest, AVLTree.FindMin ⟨Node.mk d l r h⟩ = Outcome.value lo ∧
      inorderSeq (Node.mk d l r h) = lo :: rest := by
  obtain ⟨m, lm, rm, hm, rest, e1, e2⟩ := findMinimum_spec d l r h
  exact ⟨m, rest, by simp [AVLTree.FindMin, Node.isNull, e1], e2⟩

theorem findMax_spec (d : α) (l r : Node α) (h : Int) :
    ∃ hi rest, AVLTree.FindMax ⟨Node.mk d l r h⟩ = Outcome.value hi ∧
      inorderSeq (Node.mk d l r h) = rest ++ [hi] := by
  obtain ⟨m, lm, rm, hm, rest, e1, e2⟩ := findMaximum_spec d l r h
  exact ⟨m, rest, by simp [AVLTree.FindMax, Node.isNull, e1], e2⟩

/-! Subsection: Three-key insertions -/

theorem insert_three (a b c : α) (hab : a < b) (hbc : b < c) :
    AVLTree.run [Op.insert a, Op.insert b, Op.insert c] AVLTree.empty =
        some ⟨threeNode a b c⟩ ∧
    AVLTree.run [Op.insert a, Op.insert c, Op.insert b] AVLTree.empty =
        some ⟨threeNode a b c⟩ ∧
    AVLTree.run [Op.insert b, Op.insert a, Op.insert c] AVLTree.empty =
        some ⟨threeNode a b c⟩ ∧
    AVLTree.run [Op.insert b, Op.insert c, Op.insert a] AVLTree.empty =
        some ⟨threeNode a b c⟩ ∧
    AVLTree.run [Op.insert c, Op.insert a, Op.insert b] AVLTree.empty =
        some ⟨threeNode a b c⟩ ∧
    AVLTree.run [Op.insert c, Op.insert b, Op.insert a] AVLTree.empty =
        some ⟨threeNode a b c⟩ := by
  have hac : a < c := lt_trans hab hbc
  have n1 := ne_of_lt hab
  have n2 := ne_of_lt hbc
  have n3 := ne_of_lt hac
  have n4 := ne_of_gt hab
  have n5 := ne_of_gt hbc
  have n6 := ne_of_gt hac
  have g1 := not_lt_of_gt hab
  have g2 := not_lt_of_gt hbc
  have g3 := not_lt_of_gt hac
  refine ⟨?_, ?_, ?_, ?_, ?_, ?_⟩ <;>
    simp [AVLTree.run, AVLTree.apply, AVLTree.Insert, AVLTree.empty, InsertValue, Node.new,
      Rebalance, RotateLeft, RotateRight, RotateLeftRight, RotateRightLeft, threeNode,
      hab, hbc, hac, n1, n2, n3, n4, n5, n6, g1, g2, g3]

theorem perm_three_cases {α : Type} (a b c : α) (xs : List α) (h : xs.Perm [a, b, c]) :
    xs = [a, b, c] ∨ xs = [a, c, b] ∨ xs = [b, a, c] ∨ xs = [b, c, a] ∨ xs = [c, a, b] ∨
      xs = [c, b, a] := by
  have hm := List.mem_permutations'.mpr h
  simp [List.permutations', List.permutations'Aux] at hm
  tauto

/-! Subsection: Rotations and their preconditions -/

theorem rotateLeft_spec (d1 d2 : α) (a b c : Node α) (h1 h2 : Int) :
    RotateLeft (Node.mk d1 a (Node.mk d2 b c h2) h1) =
      some (Node.mk d2 (Node.mk d1 a b (1 + max (GetHeight a) (GetHeight b))) c
        (1 + max (1 + max (GetHeight a) (GetHeight b)) (GetHeight c))) := by
  simp [RotateLeft]

theorem rotateRight_spec (d1 d2 : α) (a b c : Node α) (h1 h2 : Int) :
    RotateRight (Node.mk d2 (Node.mk d1 a b h1) c h2) =
      some (Node.mk d1 a (Node.mk d2 b c (1 + max (GetHeight b) (GetHeight c)))
        (1 + max (GetHeight a) (1 + max (GetHeight b) (GetHeight c)))) := by
  simp [RotateRight]

theorem rotateLeftRight_spec (d1 d2 d3 : α) (a b c e : Node α) (h1 h2 h3 : Int) :
    RotateLeftRight (Node.mk d3 (Node.mk d1 a (Node.mk d2 b c h2) h1) e h3) =
      some (Node.mk d2 (Node.mk d1 a b (1 + max (GetHeight a) (GetHeight b)))
        (Node.mk d3 c e (1 + max (GetHeight c) (GetHeight e)))
        (1 + max (1 + max (GetHeight a) (GetHeight b))
          (1 + max (GetHeight c) (GetHeight e)))) := by
  simp [RotateLeftRight, RotateLeft, RotateRight]

theorem rotateRightLeft_spec (d1 d2 d3 : α) (a b c e : Node α) (h1 h2 h3 : Int) :
    RotateRightLeft (Node.mk d1 a (Node.mk d3 (Node.mk d2 b c h2) e h3) h1) =
      some (Node.mk d2 (Node.mk d1 a b (1 + max (GetHeight a) (GetHeight b)))
        (Node.mk d3 c e (1 + max (GetHeight c) (GetHeight e)))
        (1 + max (1 + max (GetHeight a) (GetHeight b))
          (1 + max (GetHeight c) (GetHeight e)))) := by
  simp [RotateRightLeft, RotateLeft, RotateRight]

/-- On a node with height-correct subtrees `Rebalance` never dereferences a null pointer,
and its result is height-correct. -/
theorem rebalance_total (d : α) (l r : Node α) (h : Int) (hl : HeightOK l) (hr : HeightOK r) :
    ∃ t, Rebalance (UpdateHeight (Node.mk d l r h)) = some t ∧ HeightOK t ∧ t ≠ Node.null := by
  have gl := hl.height_ge
  have gr := hr.height_ge
  by_cases c1 : GetHeight l - GetHeight r > 1
  · cases l with
    | null => simp only [GetHeight_null] at c1; omega
    | mk dl ll lr h1 =>
      obtain ⟨hll, hlr, e1⟩ := hl
      have gll := hll.height_ge
      by_cases c2 : GetHeight ll - GetHeight lr ≥ 0
      · have key : Rebalance (UpdateHeight (Node.mk d (Node.mk dl ll lr h1) r h)) =
            RotateRight (Node.mk d (Node.mk dl ll lr h1) r
              (1 + max (GetHeight (Node.mk dl ll lr h1)) (GetHeight r))) := by
          simp only [UpdateHeight_mk, Rebalance, GetBalance_mk, if_pos c1, if_pos c2]
        rw [rotateRight_spec] at key
        exact ⟨_, key, ⟨hll, ⟨hlr, hr, rfl⟩, rfl⟩, by simp⟩
      · cases lr with
        | null => simp only [GetHeight_null] at c2; omega
        | mk dlr lrl lrr h2 =>
          obtain ⟨hlrl, hlrr, e2⟩ := hlr
          have key : Rebalance (UpdateHeight
                (Node.mk d (Node.mk dl ll (Node.mk dlr lrl lrr h2) h1) r h)) =
              RotateLeftRight (Node.mk d (Node.mk dl ll (Node.mk dlr lrl lrr h2) h1) r
                (1 + max (GetHeight (Node.mk dl ll (Node.mk dlr lrl lrr h2) h1))
                  (GetHeight r))) := by
            simp only [UpdateHeight_mk, Rebalance, GetBalance_mk, if_pos c1, if_neg c2]
          rw [rotateLeftRight_spec] at key
          exact ⟨_, key, ⟨⟨hll, hlrl, rfl⟩, ⟨hlrr, hr, rfl⟩, rfl⟩, by simp⟩
  · by_cases c3 : GetHeight l - GetHeight r < -1
    · cases r with
      | null => simp only [GetHeight_null] at c3; omega
      | mk dr rl rr h1 =>
        obtain ⟨hrl, hrr, e1⟩ := hr
        have grr := hrr.height_ge
        by_cases c2 : GetHeight rl - GetHeight rr ≤ 0
        · have key : Rebalance (UpdateHeight (Node.mk d l (Node.mk dr rl rr h1) h)) =
              RotateLeft (Node.mk d l (Node.mk dr rl rr h1)
                (1 + max (GetHeight l) (GetHeight (Node.mk dr rl rr h1)))) := by
            simp only [UpdateHeight_mk, Rebalance, GetBalance_mk, if_neg c1, if_pos c3,
              if_pos c2]
          rw [rotateLeft_spec] at key
          exact ⟨_, key, ⟨⟨hl, hrl, rfl⟩, hrr, rfl⟩, by simp⟩
        · cases rl with
          | null => simp only [GetHeight_null] at c2; omega
          | mk drl rll rlr h2 =>
            obtain ⟨hrll, hrlr, e2⟩ := hrl
            have key : Rebalance (UpdateHeight
                  (Node.mk d l (Node.mk dr (Node.mk drl rll rlr h2) rr h1) h)) =
                RotateRightLeft (Node.mk d l (Node.mk dr (Node.mk drl rll rlr h2) rr h1)
                  (1 + max (GetHeight l)
                    (GetHeight (Node.mk dr (Node.mk drl rll rlr h2) rr h1)))) := by
              simp only [UpdateHeight_mk, Rebalance, GetBalance_mk, if_neg c1, if_pos c3,
                if_neg c2]
            rw [rotateRightLeft_spec] at key
            exact ⟨_, key, ⟨⟨hl, hrll, rfl⟩, ⟨hrlr, hrr, rfl⟩, rfl⟩, by simp⟩
    · exact ⟨Node.mk d l r (1 + max (GetHeight l) (GetHeight r)),
        by simp [Rebalance, c1, c3], ⟨hl, hr, rfl⟩, by simp⟩

theorem insert_total (t : Node α) (v : α) (ht : HeightOK t) :
    ∃ t1, InsertValue t v = some t1 ∧ HeightOK t1 := by
  induction t with
  | null => exact ⟨Node.new v, rfl, ⟨trivial, trivial, by simp⟩⟩
  | mk d l r h0 ihl ihr =>
    obtain ⟨hl, hr, e0⟩ := ht
    by_cases c1 : v = d
    · exact ⟨Node.mk d l r h0, by simp [InsertValue, c1], ⟨hl, hr, e0⟩⟩
    · by_cases c2 : v < d
      · obtain ⟨l1, el, hl1⟩ := ihl hl
        obtain ⟨t1, et, ht1, _⟩ := rebalance_total d l1 r h0 hl1 hr
        exact ⟨t1, by simpa [InsertValue, c1, c2, el] using et, ht1⟩
      · obtain ⟨r1, er, hr1⟩ := ihr hr
        obtain ⟨t1, et, ht1, _⟩ := rebalance_total d l r1 h0 hl hr1
        exact ⟨t1, by simpa [InsertValue, c1, c2, er] using et, ht1⟩

theorem remove_total (t : Node α) (v : α) (ht : HeightOK t) :
    ∃ t1, RemoveNode t v = some t1 ∧ HeightOK t1 := by
  induction t generalizing v with
  | null => exact ⟨Node.null, rfl, trivial⟩
  | mk d l r h0 ihl ihr =>
    obtain ⟨hl, hr, e0⟩ := ht
    by_cases c1 : v = d
    · subst c1
      cases l with
      | null =>
        cases r with
        | null => exact ⟨Node.null, by simp [RemoveNode, Node.isNull], trivial⟩
        | mk dr rl rr h1 => exact ⟨_, by simp [RemoveNode, Node.isNull], hr⟩
      | mk dl ll lr h1 =>
        cases r with
        | null => exact ⟨_, by simp [RemoveNode, Node.isNull], hl⟩
        | mk dr rl rr h2 =>
          obtain ⟨m, lm, rm, hm, rest, e1, e2⟩ := findMinimum_spec dr rl rr h2
          obtain ⟨r1, er, hr1⟩ := ihr m hr
          have nl : (Node.mk dl ll lr h1).isNull = false := rfl
          have nr : (Node.mk dr rl rr h2).isNull = false := rfl
          generalize Node.mk dl ll lr h1 = L at *
          generalize Node.mk dr rl rr h2 = R at *
          obtain ⟨t1, et, ht1, _⟩ := rebalance_total m L r1 h0 hl hr1
          exact ⟨t1, by simpa [RemoveNode, nl, nr, e1, er] using et, ht1⟩
    · by_cases c2 : v < d
      · obtain ⟨l1, el, hl1⟩ := ihl v hl
        obtain ⟨t1, et, ht1, _⟩ := rebalance_total d l1 r h0 hl1 hr
        exact ⟨t1, by simpa [RemoveNode, c1, c2, el] using et, ht1⟩
      · obtain ⟨r1, er, hr1⟩ := ihr v hr
        obtain ⟨t1, et, ht1, _⟩ := rebalance_total d l r1 h0 hl hr1
        exact ⟨t1, by simpa [RemoveNode, c1, c2, er] using et, ht1⟩

/-! Subsection: Height bound -/

theorem four_mul_le_sq_add (x p q : Nat) (h1 : x ≤ p ^ 2) (h2 : x ≤ q ^ 2) :
    4 * x ≤ (p + q) ^ 2 := by
  have h3 : x * x ≤ (p * q) * (p * q) := by
    calc x * x ≤ p ^ 2 * q ^ 2 := Nat.mul_le_mul h1 h2
      _ = (p * q) * (p * q) := by ring
  have h4 : x ≤ p * q := Nat.mul_self_le_mul_self_iff.mp h3
  nlinarith [h1, h2, h4]

/-- Height bound of AVL trees: a height-correct balanced tree of stored height `h` with
`n` keys satisfies `2^(h+1) ≤ (n+1)^2`. -/
theorem height_bound (t : Node α) (ht : HeightOK t) (bt : Balanced t) :
    2 ^ (GetHeight t + 1).toNat ≤ ((inorderSeq t).length + 1) ^ 2 := by
  induction t with
  | null => simp
  | mk d l r h0 ihl ihr =>
    obtain ⟨hl, hr, e0⟩ := ht
    obtain ⟨bl, br, b1, b2⟩ := bt
    simp only [GetBalance_mk] at b1 b2
    have gl := hl.height_ge
    have gr := hr.height_ge
    have il := ihl hl bl
    have ir := ihr hr br
    simp only [GetHeight_mk, inorderSeq_mk, List.length_append, List.length_cons]
    generalize (inorderSeq l).length = nl at *
    generalize (inorderSeq r).length = nr at *
    obtain ⟨m, hm1, hm2, hm3⟩ : ∃ m : Nat, m ≤ (GetHeight l + 1).toNat ∧
        m ≤ (GetHeight r + 1).toNat ∧ (h0 + 1).toNat ≤ m + 2 :=
      ⟨min (GetHeight l + 1).toNat (GetHeight r + 1).toNat, by omega, by omega, by omega⟩
    have p1 : 2 ^ m ≤ (nl + 1) ^ 2 :=
      le_trans (Nat.pow_le_pow_right (by decide) hm1) il
    have p2 : 2 ^ m ≤ (nr + 1) ^ 2 :=
      le_trans (Nat.pow_le_pow_right (by decide) hm2) ir
    have p3 := four_mul_le_sq_add (2 ^ m) (nl + 1) (nr + 1) p1 p2
    calc 2 ^ (h0 + 1).toNat ≤ 2 ^ (m + 2) := Nat.pow_le_pow_right (by decide) hm3
      _ = 4 * 2 ^ m := by ring
      _ ≤ (nl + 1 + (nr + 1)) ^ 2 := p3
      _ = (nl + (nr + 1) + 1) ^ 2 := by ring

theorem logb_bound (k s : Nat) (hs : 0 < s) (h : 2 ^ k ≤ s ^ 2) :
    (k : ℝ) ≤ 2 * Real.logb 2 (s : ℝ) := by
  have hs0 : (0 : ℝ) < (s : ℝ) := by exact_mod_cast hs
  have h1 : ((2 : ℝ) ^ k) ≤ (s : ℝ) ^ 2 := by exact_mod_cast h
  have h2 := Real.logb_le_logb_of_le (by norm_num : (1 : ℝ) < 2) (by positivity) h1
  rw [Real.logb_pow, Real.logb_self_eq_one (by norm_num : (1 : ℝ) < 2)] at h2
  have h3 : Real.logb 2 ((s : ℝ) ^ 2) = 2 * Real.logb 2 (s : ℝ) := by
    rw [show ((s : ℝ) ^ 2) = (s : ℝ) ^ (2 : ℕ) from rfl, Real.logb_pow]
    norm_num
  rw [h3] at h2
  linarith

/-! Subsection: Console output of the rotations -/

theorem rotateLeftLog_fst (n : Node α) : (RotateLeftLog n).map Prod.fst = RotateLeft n := by
  cases n with
  | null => rfl
  | mk d l r h =>
    cases r with
    | null => rfl
    | mk _ _ _ _ => rfl

theorem rotateRightLog_fst (n : Node α) : (RotateRightLog n).map Prod.fst = RotateRight n := by
  cases n with
  | null => rfl
  | mk d l r h =>
    cases l with
    | null => rfl
    | mk _ _ _ _ => rfl

theorem rotateLeftRightLog_fst (n : Node α) :
    (RotateLeftRightLog n).map Prod.fst = RotateLeftRight n := by
  cases n with
  | null => rfl
  | mk d l r h =>
    simp only [RotateLeftRightLog, RotateLeftRight]
    rw [← rotateLeftLog_fst l]
    cases RotateLeftLog l with
    | none => rfl
    | some p =>
      obtain ⟨l1, o1⟩ := p
      simp only [Option.map_some']
      rw [← rotateRightLog_fst]
      cases RotateRightLog (Node.mk d l1 r h) with
      | none => rfl
      | some q => rfl

theorem rotateRightLeftLog_fst (n : Node α) :
    (RotateRightLeftLog n).map Prod.fst = RotateRightLeft n := by
  cases n with
  | null => rfl
  | mk d l r h =>
    simp only [RotateRightLeftLog, RotateRightLeft]
    rw [← rotateRightLog_fst r]
    cases RotateRightLog r with
    | none => rfl
    | some p =>
      obtain ⟨r1, o1⟩ := p
      simp only [Option.map_some']
      rw [← rotateLeftLog_fst]
      cases RotateLeftLog (Node.mk d l r1 h) with
      | none => rfl
      | some q => rfl

/-- Dropping the console output of `RebalanceLog` gives `Rebalance`. -/
theorem rebalanceLog_fst (n : Node α) : (RebalanceLog n).map Prod.fst = Rebalance n := by
  cases n with
  | null => rfl
  | mk d l r h =>
    simp only [RebalanceLog, Rebalance]
    split_ifs
    · exact rotateRightLog_fst _
    · exact rotateLeftRightLog_fst _
    · exact rotateLeftLog_fst _
    · exact rotateRightLeftLog_fst _
    · rfl

theorem bind_rebalanceLog_fst (x : Option (Node α × List (RotationKind × α)))
    (f : Node α → Node α) :
    Option.map Prod.fst
      (match x with
        | none => none
        | some (c, out1) =>
            match RebalanceLog (f c) with
            | none => none
            | some (t, out2) => some (t, out1 ++ out2)) =
      (match x.map Prod.fst with
        | none => none
        | some c => Rebalance (f c)) := by
  cases x with
  | none => rfl
  | some p =>
    obtain ⟨c, o1⟩ := p
    simp only [Option.map_some']
    rw [← rebalanceLog_fst]
    cases RebalanceLog (f c) with
    | none => rfl
    | some q => rfl

/-- Dropping the console output of `InsertValueLog` gives `InsertValue`. -/
theorem insertValueLog_fst (t : Node α) (v : α) :
    (InsertValueLog t v).map Prod.fst = InsertValue t v := by
  induction t with
  | null => rfl
  | mk d l r h ihl ihr =>
    simp only [InsertValueLog, InsertValue]
    split_ifs
    · rfl
    · rw [← ihl]
      exact bind_rebalanceLog_fst _ (fun c => UpdateHeight (Node.mk d c r h))
    · rw [← ihr]
      exact bind_rebalanceLog_fst _ (fun c => UpdateHeight (Node.mk d l c h))

/-- Dropping the console output of `RemoveNodeLog` gives `RemoveNode`. -/
theorem removeNodeLog_fst (t : Node α) (v : α) :
    (RemoveNodeLog t v).map Prod.fst = RemoveNode t v := by
  induction t generalizing v with
  | null => rfl
  | mk d l r h ihl ihr =>
    by_cases c1 : v = d
    · cases el : l.isNull <;> cases er : r.isNull
      · have hn : (Node.null : Node α).isNull = true := rfl
        simp only [RemoveNodeLog, RemoveNode, if_pos c1, el, er, Bool.and_self,
          Bool.false_eq_true, if_false, hn, Bool.not_true]
        cases FindMinimum r with
        | none => rfl
        | some m =>
          cases m with
          | null => rfl
          | mk dm lm rm hm =>
            simp only []
            rw [← ihr dm]
            exact bind_rebalanceLog_fst _ (fun c => UpdateHeight (Node.mk dm l c h))
      · simp [RemoveNodeLog, RemoveNode, c1, el, er]
      · simp [RemoveNodeLog, RemoveNode, c1, el, er]
      · simp [RemoveNodeLog, RemoveNode, c1, el, er]
    · by_cases c2 : v < d
      · simp only [RemoveNodeLog, RemoveNode, if_neg c1, if_pos c2]
        rw [← ihl v]
        exact bind_rebalanceLog_fst _ (fun c => UpdateHeight (Node.mk d c r h))
      · simp only [RemoveNodeLog, RemoveNode, if_neg c1, if_neg c2]
        rw [← ihr v]
        exact bind_rebalanceLog_fst _ (fun c => UpdateHeight (Node.mk d l c h))

theorem rotateLeftLog_out {n t : Node α} {out : List (RotationKind × α)}
    (e : RotateLeftLog n = some (t, out)) :
    ∃ d l r h, n = Node.mk d l r h ∧ out = [(RotationKind.left, d)] := by
  cases n with
  | null => simp [RotateLeftLog] at e
  | mk d l r h =>
    cases r with
    | null => simp [RotateLeftLog] at e
    | mk dr rl rr hr =>
      simp only [RotateLeftLog, Option.some.injEq, Prod.mk.injEq] at e
      exact ⟨d, l, _, h, rfl, e.2.symm⟩

theorem rotateRightLog_out {n t : Node α} {out : List (RotationKind × α)}
    (e : RotateRightLog n = some (t, out)) :
    ∃ d l r h, n = Node.mk d l r h ∧ out = [(RotationKind.right, d)] := by
  cases n with
  | null => simp [RotateRightLog] at e
  | mk d l r h =>
    cases l with
    | null => simp [RotateRightLog] at e
    | mk dl ll lr hl =>
      simp only [RotateRightLog, Option.some.injEq, Prod.mk.injEq] at e
      exact ⟨d, _, r, h, rfl, e.2.symm⟩

theorem oneDispatch_points {out : List (RotationKind × α)} (h : OneDispatch out) :
    rotationPoints out = 1 := by
  rcases h with ⟨k, rfl⟩ | ⟨k, rfl⟩ | ⟨k, k1, rfl⟩ | ⟨k, k1, rfl⟩ <;> rfl

/-- Console output of `Rebalance`: nothing when the balance factor is within [-1, +1],
the output of one dispatch otherwise. -/
theorem rebalanceLog_out {d : α} {l r : Node α} {h : Int} {t : Node α}
    {out : List (RotationKind × α)} (e : RebalanceLog (Node.mk d l r h) = some (t, out)) :
    (GetHeight l - GetHeight r ≤ 1 → -1 ≤ GetHeight l - GetHeight r → out = []) ∧
    (GetHeight l - GetHeight r > 1 ∨ GetHeight l - GetHeight r < -1 → OneDispatch out) := by
  simp only [RebalanceLog, GetBalance_mk] at e
  split_ifs at e with c1 c2 c3 c4
  · refine ⟨fun a _ => absurd c1 (by omega), fun _ => Or.inl ?_⟩
    obtain ⟨d0, l0, r0, h0, en, eo⟩ := rotateRightLog_out e
    exact ⟨d0, eo⟩
  · refine ⟨fun a _ => absurd c1 (by omega), fun _ => Or.inr (Or.inr (Or.inl ?_))⟩
    simp only [RotateLeftRightLog] at e
    cases e1 : RotateLeftLog l with
    | none => simp [e1] at e
    | some p =>
      obtain ⟨l1, o1⟩ := p
      simp only [e1] at e
      cases e2 : RotateRightLog (Node.mk d l1 r h) with
      | none => simp [e2] at e
      | some q =>
        obtain ⟨t2, o2⟩ := q
        simp only [e2, Option.some.injEq, Prod.mk.injEq] at e
        obtain ⟨d1, _, _, _, _, eo1⟩ := rotateLeftLog_out e1
        obtain ⟨d2, _, _, _, en2, eo2⟩ := rotateRightLog_out e2
        have hd : d2 = d := by
          injection en2 with hd
          exact hd.symm
        refine ⟨d, d1, ?_⟩
        rw [← e.2, eo1, eo2, hd]
        rfl
  · refine ⟨fun _ b => absurd c3 (by omega), fun _ => Or.inr (Or.inl ?_)⟩
    obtain ⟨d0, l0, r0, h0, en, eo⟩ := rotateLeftLog_out e
    exact ⟨d0, eo⟩
  · refine ⟨fun _ b => absurd c3 (by omega), fun _ => Or.inr (Or.inr (Or.inr ?_))⟩
    simp only [RotateRightLeftLog] at e
    cases e1 : RotateRightLog r with
    | none => simp [e1] at e
    | some p =>
      obtain ⟨r1, o1⟩ := p
      simp only [e1] at e
      cases e2 : RotateLeftLog (Node.mk d l r1 h) with
      | none => simp [e2] at e
      | some q =>
        obtain ⟨t2, o2⟩ := q
        simp only [e2, Option.some.injEq, Prod.mk.injEq] at e
        obtain ⟨d1, _, _, _, _, eo1⟩ := rotateRightLog_out e1
        obtain ⟨d2, _, _, _, en2, eo2⟩ := rotateLeftLog_out e2
        have hd : d2 = d := by
          injection en2 with hd
          exact hd.symm
        refine ⟨d, d1, ?_⟩
        rw [← e.2, eo1, eo2, hd]
        rfl
  · simp only [Option.some.injEq, Prod.mk.injEq] at e
    exact ⟨fun _ _ => e.2.symm, fun hc => absurd hc (by omega)⟩

theorem rebalanceLog_of_rebalance {n t : Node α} (e : Rebalance n = some t) :
    ∃ out, RebalanceLog n = some (t, out) := by
  rw [← rebalanceLog_fst] at e
  cases hx : RebalanceLog n with
  | none => simp [hx] at e
  | some p =>
    obtain ⟨t0, o⟩ := p
    simp only [hx, Option.map_some', Option.some.injEq] at e
    exact ⟨o, by rw [e]⟩

/-- One step of the unwinding of `InsertValue`: the subtree `c` grew into `c1` by an
insertion that either printed nothing, or printed one dispatch and kept the height. -/
theorem insert_step (d : α) (l r l1 r1 : Node α) (h0 : Int)
    (hl : HeightOK l1) (hr : HeightOK r1) (bl : Balanced l1) (br : Balanced r1)
    (e0 : h0 = 1 + max (GetHeight l) (GetHeight r))
    (b1 : -1 ≤ GetHeight l - GetHeight r) (b2 : GetHeight l - GetHeight r ≤ 1)
    (gl : -1 ≤ GetHeight l) (gr : -1 ≤ GetHeight r)
    (o1 : List (RotationKind × α))
    (hside : (l1 = l ∧ GetHeight r ≤ GetHeight r1 ∧ GetHeight r1 ≤ GetHeight r + 1 ∧
        (GetHeight r1 = GetHeight r + 1 → o1 = [] ∧ (GetHeight r = -1 ∨ GetBalance r1 ≠ 0)) ∧
        (GetHeight r1 = GetHeight r → o1 = [] ∨ OneDispatch o1)) ∨
      (r1 = r ∧ GetHeight l ≤ GetHeight l1 ∧ GetHeight l1 ≤ GetHeight l + 1 ∧
        (GetHeight l1 = GetHeight l + 1 → o1 = [] ∧ (GetHeight l = -1 ∨ GetBalance l1 ≠ 0)) ∧
        (GetHeight l1 = GetHeight l → o1 = [] ∨ OneDispatch o1))) :
    ∃ t1 o2, RebalanceLog (UpdateHeight (Node.mk d l1 r1 h0)) = some (t1, o2) ∧
      HeightOK t1 ∧ Balanced t1 ∧ h0 ≤ GetHeight t1 ∧ GetHeight t1 ≤ h0 + 1 ∧
      (GetHeight t1 = h0 + 1 → o1 ++ o2 = [] ∧ GetBalance t1 ≠ 0) ∧
      (GetHeight t1 = h0 → o1 ++ o2 = [] ∨ OneDispatch (o1 ++ o2)) := by
  have g1 := hl.height_ge
  have g2 := hr.height_ge
  have hd1 : GetHeight l1 - GetHeight r1 ≤ 2 := by
    rcases hside with ⟨rfl, _⟩ | ⟨rfl, _⟩ <;> omega
  have hd2 : -2 ≤ GetHeight l1 - GetHeight r1 := by
    rcases hside with ⟨rfl, _⟩ | ⟨rfl, _⟩ <;> omega
  obtain ⟨t1, et, ht1, bt1, hs, hlo, hhi, hbal, hL, hR⟩ :=
    rebalance_spec d l1 r1 h0 hl hr bl br hd1 hd2
  obtain ⟨o2, eo⟩ := rebalanceLog_of_rebalance et
  have ho := eo
  rw [UpdateHeight_mk] at ho
  obtain ⟨oin, oout⟩ := rebalanceLog_out ho
  refine ⟨t1, o2, eo, ht1, bt1, ?_⟩
  by_cases cin : GetHeight l1 - GetHeight r1 ≤ 1 ∧ -1 ≤ GetHeight l1 - GetHeight r1
  · have e2 : o2 = [] := oin cin.1 cin.2
    have et1 := hbal cin.1 cin.2
    subst e2
    subst et1
    simp only [GetHeight_mk, GetBalance_mk, List.append_nil]
    rcases hside with ⟨rfl, s1, s2, s3, s4⟩ | ⟨rfl, s1, s2, s3, s4⟩
    · refine ⟨by omega, by omega, fun hgrow => ?_, fun hsame => ?_⟩
      · have : GetHeight r1 = GetHeight r + 1 := by omega
        exact ⟨(s3 this).1, by omega⟩
      · by_cases c : GetHeight r1 = GetHeight r
        · exact s4 c
        · exact Or.inl (s3 (by omega)).1
    · refine ⟨by omega, by omega, fun hgrow => ?_, fun hsame => ?_⟩
      · have : GetHeight l1 = GetHeight l + 1 := by omega
        exact ⟨(s3 this).1, by omega⟩
      · by_cases c : GetHeight l1 = GetHeight l
        · exact s4 c
        · exact Or.inl (s3 (by omega)).1
  · have hout : OneDispatch o2 := oout (by omega)
    rcases hside with ⟨rfl, s1, s2, s3, s4⟩ | ⟨rfl, s1, s2, s3, s4⟩
    · have hg : GetHeight r1 = GetHeight r + 1 := by omega
      obtain ⟨e1, hb⟩ := s3 hg
      have hb2 : GetBalance r1 ≠ 0 := by
        rcases hb with hb | hb
        · omega
        · exact hb
      have ht : GetHeight t1 = GetHeight r1 := hR (by omega) hb2
      subst e1
      simp only [List.nil_append]
      exact ⟨by omega, by omega, fun hgrow => absurd hgrow (by omega), fun _ => Or.inr hout⟩
    · have hg : GetHeight l1 = GetHeight l + 1 := by omega
      obtain ⟨e1, hb⟩ := s3 hg
      have hb2 : GetBalance l1 ≠ 0 := by
        rcases hb with hb | hb
        · omega
        · exact hb
      have ht : GetHeight t1 = GetHeight l1 := hL (by omega) hb2
      subst e1
      simp only [List.nil_append]
      exact ⟨by omega, by omega, fun hgrow => absurd hgrow (by omega), fun _ => Or.inr hout⟩

/-- Main lemma on the console output of `InsertValue` on a height-correct balanced tree:
if the height grows nothing is printed, and if it stays at most one dispatch is printed. -/
theorem insertLog_spec (t : Node α) (v : α) (ht : HeightOK t) (bt : Balanced t) :
    ∃ t1 out, InsertValueLog t v = some (t1, out) ∧ HeightOK t1 ∧ Balanced t1 ∧
      GetHeight t ≤ GetHeight t1 ∧ GetHeight t1 ≤ GetHeight t + 1 ∧
      (GetHeight t1 = GetHeight t + 1 → out = [] ∧ (GetHeight t = -1 ∨ GetBalance t1 ≠ 0)) ∧
      (GetHeight t1 = GetHeight t → out = [] ∨ OneDispatch out) := by
  induction t with
  | null =>
    refine ⟨Node.new v, [], rfl, ⟨trivial, trivial, by simp⟩, ⟨trivial, trivial, by simp, by simp⟩,
      by simp [Node.new], by simp [Node.new], fun _ => ⟨rfl, Or.inl rfl⟩, fun _ => Or.inl rfl⟩
  | mk d l r h0 ihl ihr =>
    obtain ⟨hl, hr, e0⟩ := ht
    obtain ⟨bl, br, b1, b2⟩ := bt
    simp only [GetBalance_mk] at b1 b2
    have gl := hl.height_ge
    have gr := hr.height_ge
    by_cases c1 : v = d
    · exact ⟨Node.mk d l r h0, [], by simp [InsertValueLog, c1], ⟨hl, hr, e0⟩, ⟨bl, br, b1, b2⟩,
        le_refl _, by omega, fun hg => absurd hg (by omega), fun _ => Or.inl rfl⟩
    · by_cases c2 : v < d
      · obtain ⟨l1, o1, el, hl1, bl1, s1, s2, s3, s4⟩ := ihl hl bl
        obtain ⟨t1, o2, eo, ht1, bt1, k1, k2, k3, k4⟩ :=
          insert_step d l r l1 r h0 hl1 hr bl1 br e0 b1 b2 gl gr o1
            (Or.inr ⟨rfl, s1, s2, s3, s4⟩)
        refine ⟨t1, o1 ++ o2, by simp only [InsertValueLog, if_neg c1, if_pos c2, el, eo], ht1, bt1, k1, k2,
          fun hg => ?_, k4⟩
        obtain ⟨x1, x2⟩ := k3 hg
        exact ⟨x1, Or.inr x2⟩
      · obtain ⟨r1, o1, er, hr1, br1, s1, s2, s3, s4⟩ := ihr hr br
        obtain ⟨t1, o2, eo, ht1, bt1, k1, k2, k3, k4⟩ :=
          insert_step d l r l r1 h0 hl hr1 bl br1 e0 b1 b2 gl gr o1
            (Or.inl ⟨rfl, s1, s2, s3, s4⟩)
        refine ⟨t1, o1 ++ o2, by simp only [InsertValueLog, if_neg c1, if_neg c2, er, eo], ht1, bt1, k1, k2,
          fun hg => ?_, k4⟩
        obtain ⟨x1, x2⟩ := k3 hg
        exact ⟨x1, Or.inr x2⟩

/-! Subsection: Rebalancing an unbalanced node; logarithm form of the bound -/

theorem rotateRight_ignores_height (d : α) (l r : Node α) (h k : Int) :
    RotateRight (Node.mk d l r h) = RotateRight (Node.mk d l r k) := by
  cases l <;> rfl

theorem rotateLeft_ignores_height (d : α) (l r : Node α) (h k : Int) :
    RotateLeft (Node.mk d l r h) = RotateLeft (Node.mk d l r k) := by
  cases r <;> rfl

/-- When the balance factor is outside [-1, +1], `Rebalance` does not read the stored
height of the node it is called on. -/
theorem rebalance_ignores_height (d : α) (l r : Node α) (h k : Int)
    (hc : GetHeight l - GetHeight r > 1 ∨ GetHeight l - GetHeight r < -1) :
    Rebalance (Node.mk d l r h) = Rebalance (Node.mk d l r k) := by
  simp only [Rebalance, GetBalance_mk]
  split_ifs with c1 c2 c3 c4
  · exact rotateRight_ignores_height d l r h k
  · simp only [RotateLeftRight]
    cases RotateLeft l with
    | none => rfl
    | some l1 => exact rotateRight_ignores_height d l1 r h k
  · exact rotateLeft_ignores_height d l r h k
  · simp only [RotateRightLeft]
    cases RotateRight r with
    | none => rfl
    | some r1 => exact rotateLeft_ignores_height d l r1 h k
  · omega

/-- `Rebalance` on a node whose balance factor is +2 or -2 and whose subtrees are
height-correct and balanced. -/
theorem rebalance_unbalanced (d : α) (l r : Node α) (h : Int)
    (hl : HeightOK l) (hr : HeightOK r) (bl : Balanced l) (br : Balanced r)
    (hc : GetHeight l - GetHeight r = 2 ∨ GetHeight l - GetHeight r = -2) :
    ∃ t, Rebalance (Node.mk d l r h) = some t ∧ HeightOK t ∧ Balanced t ∧
      inorderSeq t = inorderSeq (Node.mk d l r h) ∧
      (GetHeight l - GetHeight r = 2 → GetBalance l = 0 →
        Rebalance (Node.mk d l r h) = RotateRight (Node.mk d l r h) ∧
          GetHeight t = GetHeight l + 1) ∧
      (GetHeight l - GetHeight r = -2 → GetBalance r = 0 →
        Rebalance (Node.mk d l r h) = RotateLeft (Node.mk d l r h) ∧
          GetHeight t = GetHeight r + 1) := by
  obtain ⟨t, et, ht, bt, hs, _, _, _, _, _⟩ :=
    rebalance_spec d l r h hl hr bl br (by omega) (by omega)
  rw [UpdateHeight_mk, rebalance_ignores_height d l r _ h (by omega)] at et
  refine ⟨t, et, ht, bt, by rw [hs, inorderSeq_mk], fun h2 hb => ?_, fun h2 hb => ?_⟩
  · have e1 : Rebalance (Node.mk d l r h) = RotateRight (Node.mk d l r h) := by
      have c1 : GetHeight l - GetHeight r > 1 := by omega
      have c2 : GetBalance l ≥ 0 := by omega
      simp only [Rebalance, GetBalance_mk, if_pos c1, if_pos c2]
    refine ⟨e1, ?_⟩
    cases l with
    | null => simp only [GetHeight_null] at h2; have := hr.height_ge; omega
    | mk dl ll lr h1 =>
      obtain ⟨_, _, eh⟩ := hl
      rw [e1, rotateRight_spec] at et
      simp only [GetBalance_mk, GetHeight_mk] at hb h2 ⊢
      rw [← Option.some.inj et]
      simp only [GetHeight_mk]
      omega
  · have e1 : Rebalance (Node.mk d l r h) = RotateLeft (Node.mk d l r h) := by
      have c1 : ¬ GetHeight l - GetHeight r > 1 := by omega
      have c3 : GetHeight l - GetHeight r < -1 := by omega
      have c2 : GetBalance r ≤ 0 := by omega
      simp only [Rebalance, GetBalance_mk, if_neg c1, if_pos c3, if_pos c2]
    refine ⟨e1, ?_⟩
    cases r with
    | null => simp only [GetHeight_null] at h2; have := hl.height_ge; omega
    | mk dr rl rr h1 =>
      obtain ⟨_, _, eh⟩ := hr
      rw [e1, rotateLeft_spec] at et
      simp only [GetBalance_mk, GetHeight_mk] at hb h2 ⊢
      rw [← Option.some.inj et]
      simp only [GetHeight_mk]
      omega

theorem toNat_cast_le_logb (t : Node α) (ht : HeightOK t)
    (hb : 2 ^ (GetHeight t + 1).toNat ≤ ((inorderSeq t).length + 1) ^ 2) :
    ((GetHeight t + 1 : Int) : ℝ) ≤ 2 * Real.logb 2 (((inorderSeq t).length : ℝ) + 1) := by
  have h1 := logb_bound (GetHeight t + 1).toNat ((inorderSeq t).length + 1) (Nat.succ_pos _) hb
  have h2 : (((GetHeight t + 1).toNat : Int) : ℝ) = ((GetHeight t + 1 : Int) : ℝ) := by
    rw [Int.toNat_of_nonneg (by have := ht.height_ge; omega)]
  have h3 : (((GetHeight t + 1).toNat : Int) : ℝ) = ((GetHeight t + 1).toNat : ℝ) := by
    norm_cast
  rw [← h2, h3]
  have h4 : (((inorderSeq t).length + 1 : Nat) : ℝ) = ((inorderSeq t).length : ℝ) + 1 := by
    norm_cast
  rw [← h4]
  exact h1

end Lemmas

end AVL

/-! Section: The claims -/

namespace AVL

/-- C1: `InsertValue` preserves the AVL balance invariant.  On every tree whose stored
heights are correct and whose balance factors all lie in {-1, 0, +1}, and for every key,
`InsertValue` returns a tree in which every node satisfies
`|height(left) - height(right)| ≤ 1`, for the stored heights and for the true heights. -/
theorem C1_insert_preserves_balance {α : Type} [LinearOrder α]
    (t : Node α) (v : α) (h : HeightOK t) (b : Balanced t) :
    ∃ t1, InsertValue t v = some t1 ∧ Balanced t1 ∧ BalancedReal t1 := by
  obtain ⟨t1, e, h1, b1, _, _⟩ := insert_spec t v h b
  exact ⟨t1, e, b1, balancedReal_of h1 b1⟩

/-- Witness for C1: inserting 0 below the left-heavy side of the tree built from
4, 2, 5, 1, 3 (a right rotation at the root). -/
theorem C1_insert_preserves_balance_witness :
    HeightOK sample5 ∧ Balanced sample5 ∧
      ∃ t1, InsertValue sample5 0 = some t1 ∧ Balanced t1 ∧ BalancedReal t1 :=
  ⟨by decide, by decide, C1_insert_preserves_balance sample5 0 (by decide) (by decide)⟩

/-- C2: `RemoveNode` preserves the AVL balance invariant.  On every valid AVL tree and
for every key, present or not, `RemoveNode` returns a tree in which every node satisfies
`|height(left) - height(right)| ≤ 1` (stored and true heights); when the key sits at a
node with at most one child, that child is returned as it is. -/
theorem C2_remove_preserves_balance {α : Type} [LinearOrder α]
    (t : Node α) (v : α) (h : Valid t) :
    ∃ t1, RemoveNode t v = some t1 ∧ Balanced t1 ∧ BalancedReal t1 ∧
      ∀ d c h0, (t = Node.mk d c Node.null h0 ∨ t = Node.mk d Node.null c h0) → v = d →
        t1 = c := by
  obtain ⟨t1, e, h1, b1, _, _⟩ := remove_spec t v h.2.1 h.2.2
  refine ⟨t1, e, b1, balancedReal_of h1 b1, ?_⟩
  rintro d c h0 (rfl | rfl) rfl
  · rw [(removeNode_at_root_one_child v c h0).1] at e
    exact (Option.some.inj e).symm
  · rw [(removeNode_at_root_one_child v c h0).2] at e
    exact (Option.some.inj e).symm

/-- Witness for C2: the three removals of the demonstration driver, each on the tree
built by the stated insertions. -/
theorem C2_remove_preserves_balance_witness :
    (AVLTree.run [Op.insert 2, Op.insert 1, Op.insert 4, Op.insert 3, Op.insert 5]
        AVLTree.empty = some ⟨built21435⟩ ∧ Valid built21435 ∧
      ∃ t1, RemoveNode built21435 1 = some t1 ∧ Balanced t1 ∧ BalancedReal t1 ∧
        ∀ d c h0, (built21435 = Node.mk d c Node.null h0 ∨
          built21435 = Node.mk d Node.null c h0) → 1 = d → t1 = c) ∧
    (AVLTree.run [Op.insert 3, Op.insert 1, Op.insert 4, Op.insert 2]
        AVLTree.empty = some ⟨built3142⟩ ∧ Valid built3142 ∧
      ∃ t1, RemoveNode built3142 4 = some t1 ∧ Balanced t1 ∧ BalancedReal t1 ∧
        ∀ d c h0, (built3142 = Node.mk d c Node.null h0 ∨
          built3142 = Node.mk d Node.null c h0) → 4 = d → t1 = c) ∧
    (AVLTree.run [Op.insert 2, Op.insert 1, Op.insert 4, Op.insert 3]
        AVLTree.empty = some ⟨built2143⟩ ∧ Valid built2143 ∧
      ∃ t1, RemoveNode built2143 1 = some t1 ∧ Balanced t1 ∧ BalancedReal t1 ∧
        ∀ d c h0, (built2143 = Node.mk d c Node.null h0 ∨
          built2143 = Node.mk d Node.null c h0) → 1 = d → t1 = c) :=
  ⟨⟨by decide, by decide, C2_remove_preserves_balance built21435 1 (by decide)⟩,
    ⟨by decide, by decide, C2_remove_preserves_balance built3142 4 (by decide)⟩,
    ⟨by decide, by decide, C2_remove_preserves_balance built2143 1 (by decide)⟩⟩

/-- C3: `InsertValue` and `RemoveNode` preserve height correctness.  On every valid AVL
tree both return a tree in which every node's stored height equals one plus the maximum
of its children's stored heights, and hence equals the true height of its subtree. -/
theorem C3_height_correct {α : Type} [LinearOrder α]
    (t : Node α) (v : α) (h : Valid t) :
    (∃ t1, InsertValue t v = some t1 ∧ HeightOK t1 ∧ HeightTrue t1 ∧
      GetHeight t1 = realHeight t1) ∧
    (∃ t2, RemoveNode t v = some t2 ∧ HeightOK t2 ∧ HeightTrue t2 ∧
      GetHeight t2 = realHeight t2) := by
  obtain ⟨t1, e1, h1, _⟩ := insert_spec t v h.2.1 h.2.2
  obtain ⟨t2, e2, h2, _⟩ := remove_spec t v h.2.1 h.2.2
  exact ⟨⟨t1, e1, h1, h1.heightTrue, h1.height_eq_real⟩,
    ⟨t2, e2, h2, h2.heightTrue, h2.height_eq_real⟩⟩

/-- Witness for C3: key 4 of the tree built from 4, 2, 5, 1, 3 (two-child removal with
a rotation; insertion of a present key). -/
theorem C3_height_correct_witness :
    Valid sample5 ∧
    (∃ t1, InsertValue sample5 4 = some t1 ∧ HeightOK t1 ∧ HeightTrue t1 ∧
      GetHeight t1 = realHeight t1) ∧
    (∃ t2, RemoveNode sample5 4 = some t2 ∧ HeightOK t2 ∧ HeightTrue t2 ∧
      GetHeight t2 = realHeight t2) :=
  ⟨by decide, C3_height_correct sample5 4 (by decide)⟩

/-- C4: BST order is an invariant of every reachable tree.  Every finite sequence of
`Insert` and `Remove` operations run on the empty tree succeeds and leaves a tree whose
in-order sequence is strictly ascending (hence without repeated key); and `InsertValue`
and `RemoveNode` map every valid AVL tree to a BST-ordered tree. -/
theorem C4_bst_order {α : Type} [LinearOrder α]
    (ops : List (Op α)) :
    (∃ s, AVLTree.run ops AVLTree.empty = some s ∧ Ascending (inorderSeq s.root) ∧
      Ascending s.Traverse ∧ (inorderSeq s.root).Nodup ∧ BST s.root) ∧
    (∀ (t : Node α) (v : α), Valid t →
      (∃ t1, InsertValue t v = some t1 ∧ BST t1 ∧ Ascending (inorderSeq t1)) ∧
      (∃ t2, RemoveNode t v = some t2 ∧ BST t2 ∧ Ascending (inorderSeq t2))) := by
  constructor
  · obtain ⟨s, e, hv⟩ := run_valid ops (AVLTree.empty : AVLTree α) valid_null
    have ha := (bst_iff_ascending _).mp hv.1
    exact ⟨s, e, ha, by rw [traverse_eq]; exact ha, ascending_nodup ha, hv.1⟩
  · intro t v h
    obtain ⟨t1, e1, hv1, _⟩ := insert_valid t v h
    obtain ⟨t2, e2, hv2, _⟩ := remove_valid t v h
    exact ⟨⟨t1, e1, hv1.1, (bst_iff_ascending _).mp hv1.1⟩,
      ⟨t2, e2, hv2.1, (bst_iff_ascending _).mp hv2.1⟩⟩

/-- Witness for C4: insertion of 0 into and removal of 0 from the tree built from
4, 2, 5, 1, 3. -/
theorem C4_bst_order_witness :
    Valid sample5 ∧
      (∃ t1, InsertValue sample5 0 = some t1 ∧ BST t1 ∧ Ascending (inorderSeq t1)) ∧
      (∃ t2, RemoveNode sample5 0 = some t2 ∧ BST t2 ∧ Ascending (inorderSeq t2)) :=
  ⟨by decide, (C4_bst_order ([] : List (Op Int))).2 sample5 0 (by decide)⟩

/-- C5: `InsertValue` adds exactly the new key.  On every valid AVL tree the in-order
sequence of the result is strictly ascending, holds exactly the keys of the input and the
new key, is the input sequence with the key inserted at its sorted position (one element
longer) when the key was absent, and is the input sequence when it was present. -/
theorem C5_insert_adds_key {α : Type} [LinearOrder α]
    (t : Node α) (v : α) (h : Valid t) :
    ∃ t1, InsertValue t v = some t1 ∧ Ascending (inorderSeq t1) ∧
      (∀ x, x ∈ inorderSeq t1 ↔ x ∈ inorderSeq t ∨ x = v) ∧
      (v ∉ inorderSeq t →
        inorderSeq t1 = List.orderedInsert (fun a b => a ≤ b) v (inorderSeq t) ∧
        (inorderSeq t1).length = (inorderSeq t).length + 1) ∧
      (v ∈ inorderSeq t → inorderSeq t1 = inorderSeq t) := by
  obtain ⟨t1, e, hv, hs, _⟩ := insert_valid t v h
  have ha := (bst_iff_ascending _).mp h.1
  refine ⟨t1, e, (bst_iff_ascending _).mp hv.1, fun x => ?_, fun hn => ⟨?_, ?_⟩, fun hm => ?_⟩
  · rw [hs, mem_insertKey]
    tauto
  · rw [hs, insertKey_eq_orderedInsert hn]
  · rw [hs, length_insertKey_of_not_mem hn]
  · rw [hs, insertKey_of_mem ha hm]

/-- Witness for C5: the absent key 0 inserted into the tree built from 4, 2, 5, 1, 3. -/
theorem C5_insert_adds_key_witness :
    Valid sample5 ∧
      ∃ t1, InsertValue sample5 0 = some t1 ∧ Ascending (inorderSeq t1) ∧
        (∀ x, x ∈ inorderSeq t1 ↔ x ∈ inorderSeq sample5 ∨ x = 0) ∧
        (0 ∉ inorderSeq sample5 →
          inorderSeq t1 = List.orderedInsert (fun a b => a ≤ b) 0 (inorderSeq sample5) ∧
          (inorderSeq t1).length = (inorderSeq sample5).length + 1) ∧
        (0 ∈ inorderSeq sample5 → inorderSeq t1 = inorderSeq sample5) :=
  ⟨by decide, C5_insert_adds_key sample5 0 (by decide)⟩

/-- C6: `RemoveNode` deletes exactly the given key.  On every valid AVL tree the in-order
sequence of the result is the in-order sequence of the input with the key erased, all
other keys kept in the same order. -/
theorem C6_remove_deletes_key {α : Type} [LinearOrder α]
    (t : Node α) (v : α) (h : Valid t) :
    ∃ t1, RemoveNode t v = some t1 ∧ inorderSeq t1 = (inorderSeq t).erase v ∧
      (∀ x, x ∈ inorderSeq t1 ↔ x ∈ inorderSeq t ∧ x ≠ v) := by
  obtain ⟨t1, e, _, hs, _⟩ := remove_valid t v h
  have nd := ascending_nodup ((bst_iff_ascending _).mp h.1)
  refine ⟨t1, e, hs, fun x => ?_⟩
  rw [hs, nd.mem_erase_iff]
  tauto

/-- Witness for C6: removal of the root key 4, a node with two children, from the tree
built from 4, 2, 5, 1, 3. -/
theorem C6_remove_deletes_key_witness :
    Valid sample5 ∧
      ∃ t1, RemoveNode sample5 4 = some t1 ∧ inorderSeq t1 = (inorderSeq sample5).erase 4 ∧
        (∀ x, x ∈ inorderSeq t1 ↔ x ∈ inorderSeq sample5 ∧ x ≠ 4) :=
  ⟨by decide, C6_remove_deletes_key sample5 4 (by decide)⟩

/-- C7: inserting a key that is already present is a no-op.  On every valid AVL tree that
holds the key, `InsertValue` returns the very same tree; hence after any insert of a key,
a second insert of that key changes neither `Traverse` nor `GetHeight`. -/
theorem C7_insert_present_noop {α : Type} [LinearOrder α]
    (t : Node α) (v : α) (h : Valid t) :
    (v ∈ inorderSeq t → InsertValue t v = some t) ∧
    (∃ s1, AVLTree.Insert ⟨t⟩ v = some s1 ∧ s1.Insert v = some s1 ∧
      ∀ s2, s1.Insert v = some s2 →
        s2.Traverse = s1.Traverse ∧ s2.GetHeight = s1.GetHeight) := by
  refine ⟨insert_present t v h, ?_⟩
  obtain ⟨t1, e, hv, hs, _⟩ := insert_valid t v h
  have hm : v ∈ inorderSeq t1 := by
    rw [hs, mem_insertKey]
    exact Or.inl rfl
  have e2 : AVLTree.Insert ⟨t1⟩ v = some ⟨t1⟩ := by
    simp [AVLTree.Insert, insert_present t1 v hv hm]
  refine ⟨⟨t1⟩, by simp [AVLTree.Insert, e], e2, fun s2 hs2 => ?_⟩
  rw [e2] at hs2
  cases hs2
  exact ⟨rfl, rfl⟩

/-- Witness for C7: the present key 3 inserted into the tree built from 4, 2, 5, 1, 3. -/
theorem C7_insert_present_noop_witness :
    Valid sample5 ∧ 3 ∈ inorderSeq sample5 ∧
      (3 ∈ inorderSeq sample5 → InsertValue sample5 3 = some sample5) ∧
      (∃ s1, AVLTree.Insert ⟨sample5⟩ 3 = some s1 ∧ s1.Insert 3 = some s1 ∧
        ∀ s2, s1.Insert 3 = some s2 →
          s2.Traverse = s1.Traverse ∧ s2.GetHeight = s1.GetHeight) :=
  ⟨by decide, by decide, C7_insert_present_noop sample5 3 (by decide)⟩

/-- C8: removing a key that is not present is a no-op, not an error.  On every valid AVL
tree (the empty tree included) that does not hold the key, `RemoveNode` returns normally
and its result is the very same tree. -/
theorem C8_remove_absent_noop {α : Type} [LinearOrder α]
    (t : Node α) (v : α) (h : Valid t) (hv : v ∉ inorderSeq t) :
    RemoveNode t v = some t ∧ AVLTree.Remove ⟨t⟩ v = some ⟨t⟩ := by
  have e := remove_absent t v h hv
  exact ⟨e, by simp [AVLTree.Remove, e]⟩

/-- Witness for C8: the absent key 6 removed from the tree built from 4, 2, 5, 1, 3, and
the key 6 removed from the empty tree. -/
theorem C8_remove_absent_noop_witness :
    (Valid sample5 ∧ 6 ∉ inorderSeq sample5 ∧
      RemoveNode sample5 6 = some sample5 ∧ AVLTree.Remove ⟨sample5⟩ 6 = some ⟨sample5⟩) ∧
    (Valid (Node.null : Node Int) ∧ (6 : Int) ∉ inorderSeq (Node.null : Node Int) ∧
      RemoveNode (Node.null : Node Int) 6 = some Node.null ∧
      AVLTree.Remove (⟨Node.null⟩ : AVLTree Int) 6 = some ⟨Node.null⟩) :=
  ⟨⟨by decide, by decide, C8_remove_absent_noop sample5 6 (by decide) (by decide)⟩,
    ⟨by decide, by decide, C8_remove_absent_noop Node.null 6 (by decide) (by decide)⟩⟩

/-- C9: round trip to empty.  For pairwise distinct keys `ks` and a permutation `ps` of
them, inserting the keys of `ks` in order into the empty tree and then removing the keys
of `ps` in order succeeds and yields the empty tree, whose `GetHeight` is -1. -/
theorem C9_round_trip_empty {α : Type} [LinearOrder α]
    (ks ps : List α) (_hk : ks.Nodup) (hp : ps.Perm ks) :
    ∃ s, AVLTree.run (ks.map Op.insert ++ ps.map Op.remove) AVLTree.empty = some s ∧
      s = AVLTree.empty ∧ s.root = Node.null ∧ s.GetHeight = -1 := by
  obtain ⟨s1, e1, hv1, hm1⟩ := run_inserts ks (AVLTree.empty : AVLTree α) valid_null
  obtain ⟨s2, e2, hv2, hm2⟩ := run_removes ps s1 hv1
  have hnil : inorderSeq s2.root = [] := by
    apply List.eq_nil_iff_forall_not_mem.mpr
    intro x hx
    obtain ⟨hx1, hx2⟩ := (hm2 x).mp hx
    rcases (hm1 x).mp hx1 with hx3 | hx3
    · simp [AVLTree.empty] at hx3
    · exact hx2 (hp.mem_iff.mpr hx3)
  have hroot := inorderSeq_eq_nil hnil
  refine ⟨s2, by rw [run_append, e1]; exact e2, ?_, hroot, ?_⟩
  · cases s2 with
    | mk root =>
      simp only at hroot
      rw [hroot]
      rfl
  · simp [AVLTree.GetHeight, hroot]

/-- Witness for C9: the keys 4, 2, 5, 1, 3 inserted, then removed in the order
3, 5, 1, 4, 2. -/
theorem C9_round_trip_empty_witness :
    ([4, 2, 5, 1, 3] : List Int).Nodup ∧
      ([3, 5, 1, 4, 2] : List Int).Perm [4, 2, 5, 1, 3] ∧
      ∃ s, AVLTree.run (([4, 2, 5, 1, 3] : List Int).map Op.insert ++
          ([3, 5, 1, 4, 2] : List Int).map Op.remove) AVLTree.empty = some s ∧
        s = AVLTree.empty ∧ s.root = Node.null ∧ s.GetHeight = -1 :=
  ⟨by decide, by decide, C9_round_trip_empty [4, 2, 5, 1, 3] [3, 5, 1, 4, 2] (by decide) (by decide)⟩

/-- C10: size consistency.  Every finite sequence of `Insert` and `Remove` operations run
on the empty tree succeeds, and the length of the in-order sequence of the result is the
number of inserts whose key was absent when performed minus the number of removes whose
key was present when performed; on the result, one more insert adds one element exactly
when its key is absent and one more remove takes one away exactly when its key is
present. -/
theorem C10_size_consistency {α : Type} [LinearOrder α]
    (ops : List (Op α)) :
    ∃ s, AVLTree.run ops AVLTree.empty = some s ∧
      ((inorderSeq s.root).length : Int) =
        (effectiveInserts ops AVLTree.empty : Int) - (effectiveRemoves ops AVLTree.empty : Int) ∧
      (s.Traverse.length : Int) =
        (effectiveInserts ops AVLTree.empty : Int) - (effectiveRemoves ops AVLTree.empty : Int) ∧
      ∀ v, ∃ si sr, s.Insert v = some si ∧ s.Remove v = some sr ∧
        si.Traverse.length = s.Traverse.length + (if v ∈ s.Traverse then 0 else 1) ∧
        sr.Traverse.length + (if v ∈ s.Traverse then 1 else 0) = s.Traverse.length := by
  obtain ⟨s, e, hv, hc⟩ := run_count ops (AVLTree.empty : AVLTree α) valid_null
  have h0 : (inorderSeq (AVLTree.empty : AVLTree α).root).length = 0 := rfl
  refine ⟨s, e, by omega, by rw [traverse_eq]; omega, fun v => ?_⟩
  obtain ⟨si, ei, _, hi⟩ := run_count [Op.insert v] s hv
  obtain ⟨sr, er, _, hr⟩ := run_count [Op.remove v] s hv
  have ei2 : s.Insert v = some si := by
    simp only [AVLTree.run, AVLTree.apply] at ei
    cases hx : s.Insert v with
    | none => simp [hx] at ei
    | some y => simpa [hx] using ei
  have er2 : s.Remove v = some sr := by
    simp only [AVLTree.run, AVLTree.apply] at er
    cases hx : s.Remove v with
    | none => simp [hx] at er
    | some y => simpa [hx] using er
  refine ⟨si, sr, ei2, er2, ?_, ?_⟩
  · simp only [effectiveInserts, effectiveRemoves, AVLTree.apply, ei2] at hi
    simp only [traverse_eq]
    split_ifs at hi ⊢ <;> omega
  · simp only [effectiveInserts, effectiveRemoves, AVLTree.apply, er2] at hr
    simp only [traverse_eq]
    split_ifs at hr ⊢ <;> omega

/-- C11: `Contains` decides membership.  On every BST-ordered tree `Found` is true exactly
for the keys of the in-order sequence; it is false on the empty tree; on every valid AVL
tree it is true for a key right after `InsertValue` of that key and false right after
`RemoveNode` of that key; and on every tree reached from the empty tree by `Insert` and
`Remove` operations `Contains` agrees with membership in `Traverse`, is true for a key
right after its `Insert` and false right after its `Remove`. -/
theorem C11_contains_decides_membership {α : Type} [LinearOrder α]
    (t : Node α) (v : α) (ops : List (Op α)) :
    (BST t → (Found t v = true ↔ v ∈ inorderSeq t)) ∧
    Found (Node.null : Node α) v = false ∧
    AVLTree.Contains (AVLTree.empty : AVLTree α) v = false ∧
    (Valid t → (∃ t1, InsertValue t v = some t1 ∧ Found t1 v = true) ∧
      (∃ t2, RemoveNode t v = some t2 ∧ Found t2 v = false)) ∧
    (∃ s, AVLTree.run ops AVLTree.empty = some s ∧
      (s.Contains v = true ↔ v ∈ s.Traverse) ∧
      (∃ si, s.Insert v = some si ∧ si.Contains v = true) ∧
      (∃ sr, s.Remove v = some sr ∧ sr.Contains v = false)) := by
  have key : ∀ u : Node α, Valid u →
      (∃ t1, InsertValue u v = some t1 ∧ Found t1 v = true) ∧
      (∃ t2, RemoveNode u v = some t2 ∧ Found t2 v = false) := by
    intro u hv
    obtain ⟨ti, ei, hvi, hsi, _⟩ := insert_valid u v hv
    obtain ⟨tr, er, hvr, hsr, _⟩ := remove_valid u v hv
    refine ⟨⟨ti, ei, ?_⟩, ⟨tr, er, ?_⟩⟩
    · rw [found_iff_mem ti v hvi.1, hsi, mem_insertKey]
      exact Or.inl rfl
    · have nd := ascending_nodup ((bst_iff_ascending _).mp hv.1)
      have hn : ¬ (Found tr v = true) := by
        rw [found_iff_mem tr v hvr.1, hsr, nd.mem_erase_iff]
        simp
      simpa using hn
  refine ⟨found_iff_mem t v, rfl, rfl, key t, ?_⟩
  obtain ⟨s, e, hv⟩ := run_valid ops (AVLTree.empty : AVLTree α) valid_null
  obtain ⟨⟨ti, ei, fi⟩, ⟨tr, er, fr⟩⟩ := key s.root hv
  refine ⟨s, e, ?_, ⟨⟨ti⟩, by simp [AVLTree.Insert, ei], fi⟩,
    ⟨⟨tr⟩, by simp [AVLTree.Remove, er], fr⟩⟩
  rw [traverse_eq]
  exact found_iff_mem s.root v hv.1

/-- Witness for C11: key 3 looked up in the tree built from 4, 2, 5, 1, 3, before and
after its removal. -/
theorem C11_contains_decides_membership_witness :
    BST sample5 ∧ (Found sample5 3 = true ↔ 3 ∈ inorderSeq sample5) ∧
    Valid sample5 ∧
    ((∃ t1, InsertValue sample5 3 = some t1 ∧ Found t1 3 = true) ∧
      (∃ t2, RemoveNode sample5 3 = some t2 ∧ Found t2 3 = false)) :=
  ⟨by decide, (C11_contains_decides_membership sample5 3 []).1 (by decide), by decide,
    (C11_contains_decides_membership sample5 3 []).2.2.2.1 (by decide)⟩

/-- C12: `FindMin` and `FindMax` fail with the empty-tree error exactly when the tree has no
root.  On the empty tree both raise the error; on every tree with a root both return a
value; and on every tree reached from the empty tree by `Insert` and `Remove` operations a
further `Insert` or `Remove` returns normally, for every key.  (`Contains`, `Traverse` and
`GetHeight` are total functions of the embedding: they read no pointer that can be
null.) -/
theorem C12_only_empty_tree_fails {α : Type} [LinearOrder α]
    (t : AVLTree α) (ops : List (Op α)) :
    (AVLTree.FindMin (AVLTree.empty : AVLTree α) = Outcome.emptyTree ∧
      AVLTree.FindMax (AVLTree.empty : AVLTree α) = Outcome.emptyTree) ∧
    (t.FindMin = Outcome.emptyTree ↔ t.root = Node.null) ∧
    (t.FindMax = Outcome.emptyTree ↔ t.root = Node.null) ∧
    (t.root ≠ Node.null →
      ∃ lo hi, t.FindMin = Outcome.value lo ∧ t.FindMax = Outcome.value hi) ∧
    (∃ s, AVLTree.run ops AVLTree.empty = some s ∧
      ∀ v, (∃ si, s.Insert v = some si) ∧ (∃ sr, s.Remove v = some sr)) := by
  refine ⟨⟨rfl, rfl⟩, ?_, ?_, ?_, ?_⟩
  · cases t with
    | mk root =>
      cases root with
      | null => simp [AVLTree.FindMin, Node.isNull]
      | mk d l r h =>
        obtain ⟨lo, rest, e, _⟩ := findMin_spec d l r h
        simp [e]
  · cases t with
    | mk root =>
      cases root with
      | null => simp [AVLTree.FindMax, Node.isNull]
      | mk d l r h =>
        obtain ⟨hi, rest, e, _⟩ := findMax_spec d l r h
        simp [e]
  · intro hne
    cases t with
    | mk root =>
      cases root with
      | null => exact absurd rfl hne
      | mk d l r h =>
        obtain ⟨lo, _, e1, _⟩ := findMin_spec d l r h
        obtain ⟨hi, _, e2, _⟩ := findMax_spec d l r h
        exact ⟨lo, hi, e1, e2⟩
  · obtain ⟨s, e, hv⟩ := run_valid ops (AVLTree.empty : AVLTree α) valid_null
    refine ⟨s, e, fun v => ?_⟩
    obtain ⟨ti, ei, _⟩ := insert_valid s.root v hv
    obtain ⟨tr, er, _⟩ := remove_valid s.root v hv
    exact ⟨⟨⟨ti⟩, by simp [AVLTree.Insert, ei]⟩, ⟨⟨tr⟩, by simp [AVLTree.Remove, er]⟩⟩

/-- Witness for C12: the tree built from 4, 2, 5, 1, 3 has a root, so `FindMin` and
`FindMax` return values. -/
theorem C12_only_empty_tree_fails_witness :
    (⟨sample5⟩ : AVLTree Int).root ≠ Node.null ∧
      ∃ lo hi, AVLTree.FindMin ⟨sample5⟩ = Outcome.value lo ∧
        AVLTree.FindMax ⟨sample5⟩ = Outcome.value hi :=
  ⟨by decide, (C12_only_empty_tree_fails ⟨sample5⟩ []).2.2.2.1 (by decide)⟩

/-- C13: `FindMin` and `FindMax` return the extreme keys.  On every non-empty BST-ordered
tree `FindMin` returns the first element of the in-order sequence and `FindMax` its last
element; both are keys of the tree, the first less than or equal to every key and the
second greater than or equal to every key. -/
theorem C13_find_min_max_extreme {α : Type} [LinearOrder α]
    (t : Node α) (hne : t ≠ Node.null) (hb : BST t) :
    ∃ lo hi, AVLTree.FindMin ⟨t⟩ = Outcome.value lo ∧ AVLTree.FindMax ⟨t⟩ = Outcome.value hi ∧
      (inorderSeq t).head? = some lo ∧ (inorderSeq t).getLast? = some hi ∧
      lo ∈ inorderSeq t ∧ hi ∈ inorderSeq t ∧
      ∀ x ∈ inorderSeq t, lo ≤ x ∧ x ≤ hi := by
  cases t with
  | null => exact absurd rfl hne
  | mk d l r h =>
    obtain ⟨lo, rest1, e1, s1⟩ := findMin_spec d l r h
    obtain ⟨hi, rest2, e2, s2⟩ := findMax_spec d l r h
    have ha := (bst_iff_ascending _).mp hb
    have ha1 : Ascending (lo :: rest1) := s1 ▸ ha
    have ha2 : Ascending (rest2 ++ [hi]) := s2 ▸ ha
    unfold Ascending at ha1 ha2
    rw [List.pairwise_cons] at ha1
    rw [List.pairwise_append] at ha2
    refine ⟨lo, hi, e1, e2, by rw [s1]; rfl, by rw [s2]; simp, by rw [s1]; simp,
      by rw [s2]; simp, fun x hx => ⟨?_, ?_⟩⟩
    · rw [s1] at hx
      rcases List.mem_cons.mp hx with e | e
      · exact le_of_eq e.symm
      · exact le_of_lt (ha1.1 x e)
    · rw [s2] at hx
      rcases List.mem_append.mp hx with e | e
      · exact le_of_lt (ha2.2.2 x e hi (List.mem_singleton_self hi))
      · exact le_of_eq (List.mem_singleton.mp e)

/-- Witness for C13: the tree built from 4, 2, 5, 1, 3. -/
theorem C13_find_min_max_extreme_witness :
    sample5 ≠ Node.null ∧ BST sample5 ∧
      ∃ lo hi, AVLTree.FindMin ⟨sample5⟩ = Outcome.value lo ∧
        AVLTree.FindMax ⟨sample5⟩ = Outcome.value hi ∧
        (inorderSeq sample5).head? = some lo ∧ (inorderSeq sample5).getLast? = some hi ∧
        lo ∈ inorderSeq sample5 ∧ hi ∈ inorderSeq sample5 ∧
        ∀ x ∈ inorderSeq sample5, lo ≤ x ∧ x ≤ hi :=
  ⟨by decide, by decide, C13_find_min_max_extreme sample5 (by decide) (by decide)⟩

/-- C14: three-key rotation scenarios.  For keys `a < b < c`, inserting them into the empty
tree in any of the six orders gives the tree with root `b`, left leaf `a` and right leaf
`c`, of height 1 and in-order sequence `[a, b, c]`. -/
theorem C14_three_key_rotations {α : Type} [LinearOrder α]
    (a b c : α) (xs : List α) (hab : a < b) (hbc : b < c) (hp : xs.Perm [a, b, c]) :
    ∃ s, AVLTree.run (xs.map Op.insert) AVLTree.empty = some s ∧
      s.root = Node.mk b (Node.new a) (Node.new c) 1 ∧
      s.GetHeight = 1 ∧ s.Traverse = [a, b, c] := by
  obtain ⟨e1, e2, e3, e4, e5, e6⟩ := insert_three a b c hab hbc
  have fin : AVLTree.run (xs.map Op.insert) AVLTree.empty = some ⟨threeNode a b c⟩ := by
    rcases perm_three_cases a b c xs hp with h | h | h | h | h | h <;> subst h
    · exact e1
    · exact e2
    · exact e3
    · exact e4
    · exact e5
    · exact e6
  exact ⟨⟨threeNode a b c⟩, fin, rfl, rfl, by simp [traverse_eq, threeNode]⟩

/-- Witness for C14: the four insertion orders of the demonstration driver, 1, 2, 3 (left
rotation), 3, 2, 1 (right rotation), 3, 1, 2 (left-right rotation) and 1, 3, 2
(right-left rotation). -/
theorem C14_three_key_rotations_witness :
    ((1 : Int) < 2 ∧ (2 : Int) < 3) ∧
    (([1, 2, 3] : List Int).Perm [1, 2, 3] ∧
      ∃ s, AVLTree.run (([1, 2, 3] : List Int).map Op.insert) AVLTree.empty = some s ∧
        s.root = Node.mk 2 (Node.new 1) (Node.new 3) 1 ∧
        s.GetHeight = 1 ∧ s.Traverse = [1, 2, 3]) ∧
    (([3, 2, 1] : List Int).Perm [1, 2, 3] ∧
      ∃ s, AVLTree.run (([3, 2, 1] : List Int).map Op.insert) AVLTree.empty = some s ∧
        s.root = Node.mk 2 (Node.new 1) (Node.new 3) 1 ∧
        s.GetHeight = 1 ∧ s.Traverse = [1, 2, 3]) ∧
    (([3, 1, 2] : List Int).Perm [1, 2, 3] ∧
      ∃ s, AVLTree.run (([3, 1, 2] : List Int).map Op.insert) AVLTree.empty = some s ∧
        s.root = Node.mk 2 (Node.new 1) (Node.new 3) 1 ∧
        s.GetHeight = 1 ∧ s.Traverse = [1, 2, 3]) ∧
    (([1, 3, 2] : List Int).Perm [1, 2, 3] ∧
      ∃ s, AVLTree.run (([1, 3, 2] : List Int).map Op.insert) AVLTree.empty = some s ∧
        s.root = Node.mk 2 (Node.new 1) (Node.new 3) 1 ∧
        s.GetHeight = 1 ∧ s.Traverse = [1, 2, 3]) :=
  ⟨⟨by decide, by decide⟩,
    ⟨by decide, C14_three_key_rotations 1 2 3 [1, 2, 3] (by decide) (by decide) (by decide)⟩,
    ⟨by decide, C14_three_key_rotations 1 2 3 [3, 2, 1] (by decide) (by decide) (by decide)⟩,
    ⟨by decide, C14_three_key_rotations 1 2 3 [3, 1, 2] (by decide) (by decide) (by decide)⟩,
    ⟨by decide, C14_three_key_rotations 1 2 3 [1, 3, 2] (by decide) (by decide) (by decide)⟩⟩

/-- C15: removal with the tie-break case.  Removing 5 from the tree built from 4, 2, 5, 1, 3
makes `Rebalance` at node 4 see balance factor +2 with the left child's balance factor 0;
it takes the single `RotateRight` branch and the result is the balanced tree with root 2,
left leaf 1 and right child 4 over the leaf 3, in-order sequence 1, 2, 3, 4.  In general
`Rebalance` on a node with balance factor +2 (or -2) whose subtrees are valid AVL trees
returns a height-correct balanced tree with the same in-order sequence, also when the
heavy child has balance factor 0, where it performs the single rotation. -/
theorem C15_removal_tie_break {α : Type} [LinearOrder α]
    (d : α) (l r : Node α) (h : Int) (hl : Valid l) (hr : Valid r) :
    (AVLTree.run (([4, 2, 5, 1, 3] : List Int).map Op.insert) AVLTree.empty = some ⟨sample5⟩ ∧
      RemoveNode (Node.new (5 : Int)) 5 = some Node.null ∧
      RemoveNode sample5 5 = Rebalance (UpdateHeight sample5Pivot) ∧
      GetBalance (UpdateHeight sample5Pivot) = 2 ∧
      GetBalance (Node.mk (2 : Int) (Node.new 1) (Node.new 3) 1) = 0 ∧
      Rebalance (UpdateHeight sample5Pivot) = RotateRight (UpdateHeight sample5Pivot) ∧
      RemoveNodeLog sample5 5 = some (sample5Removed, [(RotationKind.right, 4)]) ∧
      RemoveNode sample5 5 = some sample5Removed ∧
      sample5Removed = Node.mk 2 (Node.new 1) (Node.mk 4 (Node.new 3) Node.null 1) 2 ∧
      inorderSeq sample5Removed = [1, 2, 3, 4] ∧
      Balanced sample5Removed ∧ HeightOK sample5Removed) ∧
    (GetBalance (Node.mk d l r h) = 2 →
      ∃ t, Rebalance (Node.mk d l r h) = some t ∧ Balanced t ∧ HeightOK t ∧
        inorderSeq t = inorderSeq (Node.mk d l r h) ∧
        (GetBalance l = 0 →
          Rebalance (Node.mk d l r h) = RotateRight (Node.mk d l r h) ∧
            GetHeight t = GetHeight l + 1)) ∧
    (GetBalance (Node.mk d l r h) = -2 →
      ∃ t, Rebalance (Node.mk d l r h) = some t ∧ Balanced t ∧ HeightOK t ∧
        inorderSeq t = inorderSeq (Node.mk d l r h) ∧
        (GetBalance r = 0 →
          Rebalance (Node.mk d l r h) = RotateLeft (Node.mk d l r h) ∧
            GetHeight t = GetHeight r + 1)) := by
  refine ⟨by decide, fun hb => ?_, fun hb => ?_⟩
  · simp only [GetBalance_mk] at hb
    obtain ⟨t, e, ht, bt, hs, k1, _⟩ :=
      rebalance_unbalanced d l r h hl.2.1 hr.2.1 hl.2.2 hr.2.2 (Or.inl hb)
    exact ⟨t, e, bt, ht, hs, k1 hb⟩
  · simp only [GetBalance_mk] at hb
    obtain ⟨t, e, ht, bt, hs, _, k2⟩ :=
      rebalance_unbalanced d l r h hl.2.1 hr.2.1 hl.2.2 hr.2.2 (Or.inr hb)
    exact ⟨t, e, bt, ht, hs, k2 hb⟩

/-- Witness for C15: the node of key 4 met while 5 is removed from the tree built from
4, 2, 5, 1, 3, whose left child has balance factor 0. -/
theorem C15_removal_tie_break_witness :
    Valid (Node.mk (2 : Int) (Node.new 1) (Node.new 3) 1) ∧ Valid (Node.null : Node Int) ∧
    GetBalance (Node.mk (4 : Int) (Node.mk 2 (Node.new 1) (Node.new 3) 1) Node.null 2) = 2 ∧
    GetBalance (Node.mk (2 : Int) (Node.new 1) (Node.new 3) 1) = 0 ∧
    ∃ t, Rebalance (Node.mk (4 : Int) (Node.mk 2 (Node.new 1) (Node.new 3) 1) Node.null 2) =
        some t ∧ Balanced t ∧ HeightOK t ∧
      inorderSeq t =
        inorderSeq (Node.mk (4 : Int) (Node.mk 2 (Node.new 1) (Node.new 3) 1) Node.null 2) ∧
      (GetBalance (Node.mk (2 : Int) (Node.new 1) (Node.new 3) 1) = 0 →
        Rebalance (Node.mk (4 : Int) (Node.mk 2 (Node.new 1) (Node.new 3) 1) Node.null 2) =
            RotateRight (Node.mk (4 : Int) (Node.mk 2 (Node.new 1) (Node.new 3) 1)
              Node.null 2) ∧
          GetHeight t = GetHeight (Node.mk (2 : Int) (Node.new 1) (Node.new 3) 1) + 1) :=
  ⟨by decide, by decide, by decide, by decide,
    (C15_removal_tie_break (4 : Int) (Node.mk 2 (Node.new 1) (Node.new 3) 1) Node.null 2
      (by decide) (by decide)).2.1 (by decide)⟩

/-- C16: the AVL invariant caps the height logarithmically.  A tree satisfying the
height-correctness and balance invariants, with `n` keys and stored height `h` (at least
-1, the empty tree having `n = 0` and `h = -1`), satisfies `2^(h+1) ≤ (n+1)^2`, that is
`h + 1 ≤ 2 * log2 (n + 1)`; so does every tree reached from the empty tree by `Insert` and
`Remove` operations. -/
theorem C16_height_logarithmic {α : Type} [LinearOrder α]
    (t : Node α) (ops : List (Op α)) (ht : HeightOK t) (bt : Balanced t) :
    -1 ≤ GetHeight t ∧
    2 ^ (GetHeight t + 1).toNat ≤ ((inorderSeq t).length + 1) ^ 2 ∧
    ((GetHeight t + 1 : Int) : ℝ) ≤ 2 * Real.logb 2 (((inorderSeq t).length : ℝ) + 1) ∧
    (GetHeight (Node.null : Node α) = -1 ∧ (inorderSeq (Node.null : Node α)).length = 0) ∧
    (∃ s, AVLTree.run ops AVLTree.empty = some s ∧ -1 ≤ s.GetHeight ∧
      2 ^ (s.GetHeight + 1).toNat ≤ (s.Traverse.length + 1) ^ 2) := by
  have hb := height_bound t ht bt
  refine ⟨ht.height_ge, hb, toNat_cast_le_logb t ht hb, ⟨rfl, rfl⟩, ?_⟩
  obtain ⟨s, e, hv⟩ := run_valid ops (AVLTree.empty : AVLTree α) valid_null
  refine ⟨s, e, hv.2.1.height_ge, ?_⟩
  rw [traverse_eq]
  exact height_bound s.root hv.2.1 hv.2.2

/-- Witness for C16: the minimal-node AVL tree of height 4 with its 12 keys. -/
theorem C16_height_logarithmic_witness :
    HeightOK fib4 ∧ Balanced fib4 ∧ GetHeight fib4 = 4 ∧ (inorderSeq fib4).length = 12 ∧
      2 ^ (GetHeight fib4 + 1).toNat ≤ ((inorderSeq fib4).length + 1) ^ 2 :=
  ⟨by decide, by decide, by decide, by decide,
    (C16_height_logarithmic fib4 [] (by decide) (by decide)).2.1⟩

/-- C17: a single rotation point suffices after insert.  During `InsertValue` on a valid AVL
tree `Rebalance` dispatches to a rotation at no more than one node of the insertion path:
the console output is empty or the output of exactly one dispatch; and whenever a rotation
is performed, the tree returned has the height the tree had before the insertion, so that
no node above it is rotated. -/
theorem C17_single_rotation_after_insert {α : Type} [LinearOrder α]
    (t : Node α) (v : α) (h : Valid t) :
    ∃ t1 out, InsertValueLog t v = some (t1, out) ∧ InsertValue t v = some t1 ∧
      (out = [] ∨ OneDispatch out) ∧ rotationPoints out ≤ 1 ∧
      (out ≠ [] → GetHeight t1 = GetHeight t) := by
  obtain ⟨t1, out, e, _, _, k1, k2, k3, k4⟩ := insertLog_spec t v h.2.1 h.2.2
  have e2 : InsertValue t v = some t1 := by
    rw [← insertValueLog_fst, e]
    rfl
  have hcase : GetHeight t1 = GetHeight t + 1 ∨ GetHeight t1 = GetHeight t := by omega
  have hout : out = [] ∨ OneDispatch out := by
    rcases hcase with hc | hc
    · exact Or.inl (k3 hc).1
    · exact k4 hc
  refine ⟨t1, out, e, e2, hout, ?_, fun hne => ?_⟩
  · rcases hout with ho | ho
    · subst ho
      exact Nat.zero_le 1
    · exact le_of_eq (oneDispatch_points ho)
  · rcases hcase with hc | hc
    · exact absurd (k3 hc).1 hne
    · exact hc

/-- Witness for C17: inserting 0 into the tree built from 4, 2, 5, 1, 3 rotates once, at
the root. -/
theorem C17_single_rotation_after_insert_witness :
    Valid sample5 ∧ InsertValueLog sample5 0 =
      some (Node.mk 2 (Node.mk 1 (Node.new 0) Node.null 1)
        (Node.mk 4 (Node.new 3) (Node.new 5) 1) 2, [(RotationKind.right, 4)]) ∧
      ∃ t1 out, InsertValueLog sample5 0 = some (t1, out) ∧ InsertValue sample5 0 = some t1 ∧
        (out = [] ∨ OneDispatch out) ∧ rotationPoints out ≤ 1 ∧
        (out ≠ [] → GetHeight t1 = GetHeight sample5) :=
  ⟨by decide, by decide, C17_single_rotation_after_insert sample5 0 (by decide)⟩

/-- C18: removal can require rebalancing at more than one level.  The minimal-node AVL
tree of height 4 on the keys 1 to 12 (reached by inserting its keys level by level) is a
valid AVL tree; removing the key 12 from its shorter side makes `Rebalance` dispatch to a
rotation at two distinct nodes of the path to the root, first at key 11 and then at the
root key 8, and the result is a valid AVL tree holding the other eleven keys. -/
theorem C18_removal_rotates_twice :
    AVLTree.run (([8, 5, 11, 3, 7, 10, 12, 2, 4, 6, 9, 1] : List Int).map Op.insert)
        AVLTree.empty = some ⟨fib4⟩ ∧
    Valid fib4 ∧ GetHeight fib4 = 4 ∧ 12 ∈ inorderSeq fib4 ∧
    RemoveNodeLog fib4 12 =
      some (fib4Removed, [(RotationKind.right, 11), (RotationKind.right, 8)]) ∧
    RemoveNode fib4 12 = some fib4Removed ∧
    rotationPoints [(RotationKind.right, (11 : Int)), (RotationKind.right, 8)] = 2 ∧
    Valid fib4Removed ∧
    inorderSeq fib4Removed = [1, 2, 3, 4, 5, 6, 7, 8, 9, 10, 11] := by
  decide

/-- C19: rotations preserve the in-order sequence and hence BST ordering.  `RotateLeft` on a
node `k1` with a right child returns that child as new root, with `k1` as its left child
and the child's old left subtree as `k1`'s new right child; `RotateRight` is symmetric;
`RotateLeftRight` and `RotateRightLeft` return normally when the two children they read
are present.  All four leave the in-order sequence unchanged, keep a BST-ordered tree
BST-ordered, and return a height-correct tree when the subtrees hanging off the moved
nodes are height-correct. -/
theorem C19_rotations_preserve_inorder {α : Type} [LinearOrder α]
    (d1 d2 d3 : α) (a b c e : Node α) (h1 h2 h3 : Int) :
    (∃ t hk hr, RotateLeft (Node.mk d1 a (Node.mk d2 b c h2) h1) = some t ∧
      t = Node.mk d2 (Node.mk d1 a b hk) c hr ∧
      inorderSeq t = inorderSeq (Node.mk d1 a (Node.mk d2 b c h2) h1) ∧
      (BST (Node.mk d1 a (Node.mk d2 b c h2) h1) → BST t) ∧
      (HeightOK a → HeightOK b → HeightOK c → HeightOK t)) ∧
    (∃ t hk hr, RotateRight (Node.mk d2 (Node.mk d1 a b h1) c h2) = some t ∧
      t = Node.mk d1 a (Node.mk d2 b c hk) hr ∧
      inorderSeq t = inorderSeq (Node.mk d2 (Node.mk d1 a b h1) c h2) ∧
      (BST (Node.mk d2 (Node.mk d1 a b h1) c h2) → BST t) ∧
      (HeightOK a → HeightOK b → HeightOK c → HeightOK t)) ∧
    (∃ t, RotateLeftRight (Node.mk d3 (Node.mk d1 a (Node.mk d2 b c h2) h1) e h3) = some t ∧
      inorderSeq t = inorderSeq (Node.mk d3 (Node.mk d1 a (Node.mk d2 b c h2) h1) e h3) ∧
      (BST (Node.mk d3 (Node.mk d1 a (Node.mk d2 b c h2) h1) e h3) → BST t) ∧
      (HeightOK a → HeightOK b → HeightOK c → HeightOK e → HeightOK t)) ∧
    (∃ t, RotateRightLeft (Node.mk d1 a (Node.mk d3 (Node.mk d2 b c h2) e h3) h1) = some t ∧
      inorderSeq t = inorderSeq (Node.mk d1 a (Node.mk d3 (Node.mk d2 b c h2) e h3) h1) ∧
      (BST (Node.mk d1 a (Node.mk d3 (Node.mk d2 b c h2) e h3) h1) → BST t) ∧
      (HeightOK a → HeightOK b → HeightOK c → HeightOK e → HeightOK t)) := by
  refine ⟨⟨_, _, _, rotateLeft_spec d1 d2 a b c h1 h2, rfl, ?_, ?_, ?_⟩,
    ⟨_, _, _, rotateRight_spec d1 d2 a b c h1 h2, rfl, ?_, ?_, ?_⟩,
    ⟨_, rotateLeftRight_spec d1 d2 d3 a b c e h1 h2 h3, ?_, ?_, ?_⟩,
    ⟨_, rotateRightLeft_spec d1 d2 d3 a b c e h1 h2 h3, ?_, ?_, ?_⟩⟩
  · simp
  · intro hb
    rw [bst_iff_ascending] at hb ⊢
    simpa using hb
  · exact fun ha hb hc => ⟨⟨ha, hb, rfl⟩, hc, rfl⟩
  · simp
  · intro hb
    rw [bst_iff_ascending] at hb ⊢
    simpa using hb
  · exact fun ha hb hc => ⟨ha, ⟨hb, hc, rfl⟩, rfl⟩
  · simp
  · intro hb
    rw [bst_iff_ascending] at hb ⊢
    simpa using hb
  · exact fun ha hb hc he => ⟨⟨ha, hb, rfl⟩, ⟨hc, he, rfl⟩, rfl⟩
  · simp
  · intro hb
    rw [bst_iff_ascending] at hb ⊢
    simpa using hb
  · exact fun ha hb hc he => ⟨⟨ha, hb, rfl⟩, ⟨hc, he, rfl⟩, rfl⟩

/-- Witness for C19: the four rotations on the keys 1, 2, 3 with empty subtrees. -/
theorem C19_rotations_preserve_inorder_witness :
    BST (Node.mk (1 : Int) Node.null (Node.mk 2 Node.null Node.null 0) 1) ∧
    HeightOK (Node.null : Node Int) ∧
    ∃ t hk hr, RotateLeft (Node.mk (1 : Int) Node.null (Node.mk 2 Node.null Node.null 0) 1) =
        some t ∧
      t = Node.mk 2 (Node.mk 1 Node.null Node.null hk) Node.null hr ∧
      inorderSeq t = inorderSeq (Node.mk (1 : Int) Node.null (Node.mk 2 Node.null Node.null 0) 1) ∧
      (BST (Node.mk (1 : Int) Node.null (Node.mk 2 Node.null Node.null 0) 1) → BST t) ∧
      (HeightOK (Node.null : Node Int) → HeightOK (Node.null : Node Int) →
        HeightOK (Node.null : Node Int) → HeightOK t) :=
  ⟨by decide, by decide,
    (C19_rotations_preserve_inorder (1 : Int) 2 3 Node.null Node.null Node.null Node.null
      1 0 2).1⟩

/-- C20: rotation preconditions hold where `Rebalance` invokes them.  For a node whose
two subtrees are height-correct: a balance factor above 1 means the left child is present,
and if that child's balance factor is negative its right child is present; symmetrically
for a balance factor below -1; so `Rebalance` returns normally.  Hence on every
height-correct tree `InsertValue` and `RemoveNode` return normally, with a height-correct
result. -/
theorem C20_rotation_preconditions {α : Type} [LinearOrder α]
    (d : α) (l r : Node α) (h : Int) (v : α) (hl : HeightOK l) (hr : HeightOK r) :
    (GetBalance (Node.mk d l r h) > 1 →
      l.isNull = false ∧
      (GetBalance l < 0 → ∃ dl ll lr h1, l = Node.mk dl ll lr h1 ∧ lr.isNull = false)) ∧
    (GetBalance (Node.mk d l r h) < -1 →
      r.isNull = false ∧
      (GetBalance r > 0 → ∃ dr rl rr h1, r = Node.mk dr rl rr h1 ∧ rl.isNull = false)) ∧
    (∃ t, Rebalance (UpdateHeight (Node.mk d l r h)) = some t ∧ HeightOK t) ∧
    (∀ t : Node α, HeightOK t →
      (∃ t1, InsertValue t v = some t1 ∧ HeightOK t1) ∧
      (∃ t2, RemoveNode t v = some t2 ∧ HeightOK t2)) := by
  have gl := hl.height_ge
  have gr := hr.height_ge
  refine ⟨fun hb => ?_, fun hb => ?_, ?_, fun t ht => ⟨insert_total t v ht, remove_total t v ht⟩⟩
  · simp only [GetBalance_mk] at hb
    cases l with
    | null => simp only [GetHeight_null] at hb; omega
    | mk dl ll lr h1 =>
      refine ⟨rfl, fun hb2 => ⟨dl, ll, lr, h1, rfl, ?_⟩⟩
      obtain ⟨hll, hlr, _⟩ := hl
      have gll := hll.height_ge
      simp only [GetBalance_mk] at hb2
      cases lr with
      | null => simp only [GetHeight_null] at hb2; omega
      | mk _ _ _ _ => rfl
  · simp only [GetBalance_mk] at hb
    cases r with
    | null => simp only [GetHeight_null] at hb; omega
    | mk dr rl rr h1 =>
      refine ⟨rfl, fun hb2 => ⟨dr, rl, rr, h1, rfl, ?_⟩⟩
      obtain ⟨hrl, hrr, _⟩ := hr
      have grr := hrr.height_ge
      simp only [GetBalance_mk] at hb2
      cases rl with
      | null => simp only [GetHeight_null] at hb2; omega
      | mk _ _ _ _ => rfl
  · obtain ⟨t, e, ht, _⟩ := rebalance_total d l r h hl hr
    exact ⟨t, e, ht⟩

/-- Witness for C20: the node 3 over the left child 1 whose right child is 2, as met when
2 is inserted after 3 and 1. -/
theorem C20_rotation_preconditions_witness :
    HeightOK (Node.mk (1 : Int) Node.null (Node.new 2) 1) ∧ HeightOK (Node.null : Node Int) ∧
    GetBalance (Node.mk (3 : Int) (Node.mk 1 Node.null (Node.new 2) 1) Node.null 2) > 1 ∧
    GetBalance (Node.mk (1 : Int) Node.null (Node.new 2) 1) < 0 ∧
    (Node.mk (1 : Int) Node.null (Node.new 2) 1).isNull = false ∧
    (GetBalance (Node.mk (1 : Int) Node.null (Node.new 2) 1) < 0 →
      ∃ dl ll lr h1, Node.mk (1 : Int) Node.null (Node.new 2) 1 = Node.mk dl ll lr h1 ∧
        lr.isNull = false) :=
  ⟨by decide, by decide, by decide, by decide,
    (C20_rotation_preconditions (3 : Int) (Node.mk 1 Node.null (Node.new 2) 1) Node.null 2 0
      (by decide) (by decide)).1 (by decide)⟩

end AVL
